import Mathlib

/-!
Verification development for the `relevai` Python package.

The development shallowly embeds the parts of the source that the checked
properties are about:

* `relevai/key/base.py` — the `BaseKey` token-lifecycle manager:
  `__init__`, the `token` property, `renew_token`, `_decode`, `kill`,
  `restart`, and `_token_refresher_loop`;
* `relevai/utils.py` — `chunkize`;
* the CPython library routines those methods call and whose behaviour the
  properties depend on: `str.split`, `base64.urlsafe_b64decode` (the
  non-strict `binascii.a2b_base64` character machine), `json.loads`
  (scanner of `json/decoder.py`) and `json.dumps` (default options),
  and strict UTF-8 byte decoding.

Machine floats are abstracted: times are modelled as integers (`ℤ` seconds)
and JSON non-integer numbers are carried as exact decimal
mantissa/exponent pairs; binary floating-point rounding is outside the
model.  Python `str` values are modelled as `List Char` of Unicode scalar
values (lone surrogates, which CPython `str` can carry, are outside the
model).  `json.loads` byte-input encoding auto-detection is modelled for
UTF-8 (with BOM strip); UTF-16/32 auto-detection is out of scope.
-/

/-! ### Characters and small helpers -/

/-- The `{` character, written via its code point. -/
def lbrace : Char := Char.ofNat 123

/-- The `}` character, written via its code point. -/
def rbrace : Char := Char.ofNat 125

/-- The double-quote character. -/
def dquote : Char := Char.ofNat 34

/-- The backslash character. -/
def bslash : Char := Char.ofNat 92

/-- JSON whitespace, as in the `json` module: space, tab, newline, carriage return. -/
def isWsChar (c : Char) : Bool :=
  c = ' ' ∨ c.toNat = 9 ∨ c.toNat = 10 ∨ c.toNat = 13

/-- Skip JSON whitespace (the `_w(s, idx).end()` step of the decoder). -/
def skipWs (s : List Char) : List Char := s.dropWhile isWsChar

/-- Decimal digit test (`[0-9]`, as in the scanner's number regex). -/
def isDigitChar (c : Char) : Bool := 48 ≤ c.toNat ∧ c.toNat ≤ 57

/-- Value of a hexadecimal digit, accepting both cases (`int(s, 16)`). -/
def hexVal (c : Char) : Option ℕ :=
  let n := c.toNat
  if 48 ≤ n ∧ n ≤ 57 then some (n - 48)
  else if 97 ≤ n ∧ n ≤ 102 then some (n - 87)
  else if 65 ≤ n ∧ n ≤ 70 then some (n - 55)
  else none

/-- Lower-case hexadecimal digit for `d < 16` (as emitted by `json.dumps`
escapes). -/
def hexDig (d : ℕ) : Char :=
  if d < 10 then Char.ofNat (48 + d) else Char.ofNat (87 + d)

/-- Four lower-case hex digits of `n < 0x10000`, most significant first. -/
def hex4 (n : ℕ) : List Char :=
  [hexDig (n / 4096 % 16), hexDig (n / 256 % 16), hexDig (n / 16 % 16), hexDig (n % 16)]

/-- Decimal digit character for `d < 10`. -/
def digitChar (d : ℕ) : Char := Char.ofNat (48 + d)

/-- Decimal digits with fuel for the recursion (`n` itself dominates the
number of divisions by ten). -/
def natDigitsGo : ℕ → ℕ → List Char
  | 0, _ => []
  | fuel + 1, n =>
    if n < 10 then [digitChar n]
    else natDigitsGo fuel (n / 10) ++ [digitChar (n % 10)]

/-- Decimal digits of a natural number, most significant first (Python
`str(int)` for non-negative values). -/
def natDigits (n : ℕ) : List Char := natDigitsGo (n + 1) n

/-- Decimal rendering of an integer (Python `str(int)`). -/
def intChars (n : ℤ) : List Char :=
  if n < 0 then '-' :: natDigits n.natAbs else natDigits n.toNat

/-- Numeric value of a list of decimal digit characters. -/
def digitsVal (ds : List Char) : ℕ :=
  ds.foldl (fun a c => a * 10 + (c.toNat - 48)) 0

/-! ### JSON values

`JVal` models the Python values produced by `json.loads`: `None`, `bool`,
`int`, `float` (as an exact decimal `fnum m e` denoting `m·10^e`; the
constants `nan`/`inf` cover `NaN`/`±Infinity`), `str`, `list`, `dict`
(association list in insertion order, keys unique as in a Python dict). -/

inductive JVal where
  | null
  | bool (b : Bool)
  | int (n : ℤ)
  | fnum (m : ℤ) (e : ℤ)
  | nan
  | inf (pos : Bool)
  | str (s : List Char)
  | arr (xs : List JVal)
  | obj (kvs : List (List Char × JVal))

/-- Escape of one character inside a JSON string, as produced by
`json.dumps` with its default `ensure_ascii=True`
(`c_encode_basestring_ascii`): short escapes for the usual control
characters, `\u00xx` for other controls, literal ASCII printables, and
`\uxxxx` (UTF-16 surrogate pairs above `0xFFFF`) for the rest. -/
def escChar (c : Char) : List Char :=
  if c = dquote then [bslash, dquote]
  else if c = bslash then [bslash, bslash]
  else if c.toNat = 10 then [bslash, 'n']
  else if c.toNat = 13 then [bslash, 'r']
  else if c.toNat = 9 then [bslash, 't']
  else if c.toNat = 8 then [bslash, 'b']
  else if c.toNat = 12 then [bslash, 'f']
  else if c.toNat < 0x20 then bslash :: 'u' :: hex4 c.toNat
  else if c.toNat < 0x7F then [c]
  else if c.toNat < 0x10000 then bslash :: 'u' :: hex4 c.toNat
  else
    bslash :: 'u' :: hex4 (0xD800 + (c.toNat - 0x10000) / 0x400) ++
      bslash :: 'u' :: hex4 (0xDC00 + (c.toNat - 0x10000) % 0x400)

/-- A JSON string literal as emitted by `json.dumps`. -/
def dumpStr (s : List Char) : List Char :=
  dquote :: s.flatMap escChar ++ [dquote]

mutual

/-- Serialisation of a `JVal`, mirroring `json.dumps` with default options
(separators `", "` and `": "`, `ensure_ascii=True`).  `fnum`/`nan`/`inf`
renderings are model-internal (CPython prints `repr(float)`, which involves
binary floats); round-trip statements exclude them via `jwf`. -/
def dumpsVal : JVal → List Char
  | .null => "null".data
  | .bool true => "true".data
  | .bool false => "false".data
  | .int n => intChars n
  | .fnum m e => intChars m ++ 'e' :: intChars e
  | .nan => "NaN".data
  | .inf true => "Infinity".data
  | .inf false => "-Infinity".data
  | .str s => dumpStr s
  | .arr xs => '[' :: dumpsElems xs ++ [']']
  | .obj kvs => lbrace :: dumpsMembers kvs ++ [rbrace]

/-- Comma-separated array elements (`json.dumps` default separator `", "`). -/
def dumpsElems : List JVal → List Char
  | [] => []
  | [x] => dumpsVal x
  | x :: xs => dumpsVal x ++ ',' :: ' ' :: dumpsElems xs

/-- Comma-separated object members with `": "` after each key. -/
def dumpsMembers : List (List Char × JVal) → List Char
  | [] => []
  | [(k, v)] => dumpStr k ++ ':' :: ' ' :: dumpsVal v
  | (k, v) :: tl => dumpStr k ++ ':' :: ' ' :: dumpsVal v ++ ',' :: ' ' :: dumpsMembers tl

end

mutual

/-- Node count of a `JVal`; used as fuel bound for the parser. -/
def jsize : JVal → ℕ
  | .arr xs => 1 + esize xs
  | .obj kvs => 1 + msize kvs
  | _ => 1

/-- Node count of array elements. -/
def esize : List JVal → ℕ
  | [] => 0
  | v :: tl => 1 + jsize v + esize tl

/-- Node count of object members. -/
def msize : List (List Char × JVal) → ℕ
  | [] => 0
  | (_, v) :: tl => 1 + jsize v + msize tl

end

mutual

/-- Well-formedness used in round-trip statements: no non-integer numeric
leaves (their Python text rendering involves binary floats) and object keys
unique at every level, as they are in any value obtained from a Python
dict. -/
def jwf : JVal → Bool
  | .fnum _ _ => false
  | .nan => false
  | .inf _ => false
  | .arr xs => ewf xs
  | .obj kvs => mwf kvs
  | _ => true

/-- `jwf` on array elements. -/
def ewf : List JVal → Bool
  | [] => true
  | v :: tl => jwf v && ewf tl

/-- `jwf` on object members, including key uniqueness. -/
def mwf : List (List Char × JVal) → Bool
  | [] => true
  | (k, v) :: tl => !(tl.any (fun p => p.1 = k)) && jwf v && mwf tl

end

/-! ### The JSON scanner (`json.loads`)

Mirrors the semantics of `json/decoder.py` with default options:
`py_scanstring` (strict), the `NUMBER_RE` number regex with `int`/decimal
interpretation, the constants `NaN`, `Infinity`, `-Infinity`, and the
object/array loops.  `parseStringBody` consumes fuel one *output*
character at a time; callers pass `input length + 1`, which always
suffices since every produced character consumes at least one input
character. -/

/-- Body of a string literal after the opening quote: returns the decoded
content and the input after the closing quote.  Strict mode: raw control
characters are an error; recognised escapes only; `\uXXXX` with surrogate
pairing exactly as in `py_scanstring` (a high surrogate pairs only with an
immediately following `\u`-escaped low surrogate). -/
def parseStringBody : ℕ → List Char → Option (List Char × List Char)
  | 0, _ => none
  | _ + 1, [] => none
  | fuel + 1, c :: cs =>
    if c = dquote then some ([], cs)
    else if c = bslash then
      match cs with
      | [] => none
      | e :: cs2 =>
        if e = dquote then (parseStringBody fuel cs2).map (fun r => (dquote :: r.1, r.2))
        else if e = bslash then (parseStringBody fuel cs2).map (fun r => (bslash :: r.1, r.2))
        else if e = '/' then (parseStringBody fuel cs2).map (fun r => ('/' :: r.1, r.2))
        else if e = 'b' then (parseStringBody fuel cs2).map (fun r => (Char.ofNat 8 :: r.1, r.2))
        else if e = 'f' then (parseStringBody fuel cs2).map (fun r => (Char.ofNat 12 :: r.1, r.2))
        else if e = 'n' then (parseStringBody fuel cs2).map (fun r => (Char.ofNat 10 :: r.1, r.2))
        else if e = 'r' then (parseStringBody fuel cs2).map (fun r => (Char.ofNat 13 :: r.1, r.2))
        else if e = 't' then (parseStringBody fuel cs2).map (fun r => (Char.ofNat 9 :: r.1, r.2))
        else if e = 'u' then
          match cs2 with
          | h1 :: h2 :: h3 :: h4 :: cs3 =>
            match hexVal h1, hexVal h2, hexVal h3, hexVal h4 with
            | some a, some b, some c2, some d =>
              let n := ((a * 16 + b) * 16 + c2) * 16 + d
              if 0xD800 ≤ n ∧ n ≤ 0xDBFF then
                match cs3 with
                | e1 :: e2 :: k1 :: k2 :: k3 :: k4 :: cs4 =>
                  if e1 = bslash ∧ e2 = 'u' then
                    match hexVal k1, hexVal k2, hexVal k3, hexVal k4 with
                    | some a2, some b2, some c3, some d2 =>
                      let m := ((a2 * 16 + b2) * 16 + c3) * 16 + d2
                      if 0xDC00 ≤ m ∧ m ≤ 0xDFFF then
                        (parseStringBody fuel cs4).map (fun r =>
                          (Char.ofNat (0x10000 + (n - 0xD800) * 0x400 + (m - 0xDC00)) :: r.1, r.2))
                      else
                        (parseStringBody fuel (e1 :: e2 :: k1 :: k2 :: k3 :: k4 :: cs4)).map
                          (fun r => (Char.ofNat n :: r.1, r.2))
                    | _, _, _, _ => none
                  else (parseStringBody fuel cs3).map (fun r => (Char.ofNat n :: r.1, r.2))
                | _ => (parseStringBody fuel cs3).map (fun r => (Char.ofNat n :: r.1, r.2))
              else (parseStringBody fuel cs3).map (fun r => (Char.ofNat n :: r.1, r.2))
            | _, _, _, _ => none
          | _ => none
        else none
    else if c.toNat < 0x20 then none
    else (parseStringBody fuel cs).map (fun r => (c :: r.1, r.2))

/-- Match a literal word at the head of the input (no fuel needed). -/
def dropLit : List Char → List Char → Option (List Char)
  | [], s => some s
  | _ :: _, [] => none
  | a :: l2, c :: s2 => if c = a then dropLit l2 s2 else none

/-- Number scanning, mirroring the scanner's regex
`(-?(?:0|[1-9]\d*))(\.\d+)?([eE][-+]?\d+)?` with maximal munch and the
default `int`/`float` interpretation: an integral match yields `.int`, a
match with fraction or exponent yields the exact decimal `.fnum`. -/
def pnSign (s : List Char) : Bool × List Char :=
  match s with
  | c :: cs => if c = '-' then (true, cs) else (false, s)
  | [] => (false, s)

def pnInt (c : Char) (cs : List Char) : List Char × List Char :=
  if c = '0' then ([c], cs)
  else ((c :: cs).takeWhile isDigitChar, (c :: cs).dropWhile isDigitChar)

def pnFrac (rest1 : List Char) : List Char × List Char :=
  match rest1 with
  | p :: d :: _ =>
    if p = '.' ∧ isDigitChar d then
      ((rest1.drop 1).takeWhile isDigitChar, (rest1.drop 1).dropWhile isDigitChar)
    else ([], rest1)
  | _ => ([], rest1)

def pnExp (rest2 : List Char) : Option ℤ × List Char :=
  match rest2 with
  | e :: rest3 =>
    if e = 'e' ∨ e = 'E' then
      let se : ℤ × List Char :=
        match rest3 with
        | c2 :: cs2 =>
          if c2 = '-' then (-1, cs2) else if c2 = '+' then (1, cs2) else (1, rest3)
        | [] => (1, rest3)
      match se.2.takeWhile isDigitChar with
      | [] => (none, rest2)
      | eds => (some (se.1 * (digitsVal eds : ℤ)), se.2.dropWhile isDigitChar)
    else (none, rest2)
  | [] => (none, rest2)

def parseNumber (s : List Char) : Option (JVal × List Char) :=
  let sr := pnSign s
  match sr.2 with
  | [] => none
  | c :: cs =>
    if ¬ (isDigitChar c) then none
    else
      let ip := pnInt c cs
      let fp := pnFrac ip.2
      let ep := pnExp fp.2
      let sign : ℤ := if sr.1 then -1 else 1
      match fp.1, ep.1 with
      | [], none => some (.int (sign * (digitsVal ip.1 : ℤ)), ip.2)
      | [], some ex => some (.fnum (sign * (digitsVal ip.1 : ℤ)) ex, ep.2)
      | _ :: _, none =>
        some (.fnum (sign * (digitsVal (ip.1 ++ fp.1) : ℤ)) (-(fp.1.length : ℤ)), fp.2)
      | _ :: _, some ex =>
        some (.fnum (sign * (digitsVal (ip.1 ++ fp.1) : ℤ)) (ex - (fp.1.length : ℤ)), ep.2)

/-- Keyword constants and numbers, in the scanner's test order (the keyword
heads `n`/`t`/`f`/`N`/`I` never start a number, and `-Infinity` is only
tried after the number regex fails to match). -/
def parseAtom (s : List Char) : Option (JVal × List Char) :=
  match dropLit "null".data s with
  | some r => some (.null, r)
  | none =>
  match dropLit "true".data s with
  | some r => some (.bool true, r)
  | none =>
  match dropLit "false".data s with
  | some r => some (.bool false, r)
  | none =>
  match dropLit "NaN".data s with
  | some r => some (.nan, r)
  | none =>
  match dropLit "Infinity".data s with
  | some r => some (.inf true, r)
  | none =>
  match parseNumber s with
  | some r => some r
  | none =>
  match dropLit "-Infinity".data s with
  | some r => some (.inf false, r)
  | none => none

/-- Python dict item assignment `d[k] = v` on an insertion-ordered
association list: an existing key keeps its position and gets the new
value, a new key is appended. -/
def objInsert : List (List Char × JVal) → List Char → JVal → List (List Char × JVal)
  | [], k, v => [(k, v)]
  | (k2, v2) :: tl, k, v =>
    if k2 = k then (k2, v) :: tl else (k2, v2) :: objInsert tl k v

mutual

/-- One JSON value at the head of the input (whitespace already skipped),
returning it and the remaining input; `fuel` bounds value-level recursion
and is decremented on every nested value/member/element step. -/
def parseValue : ℕ → List Char → Option (JVal × List Char)
  | 0, _ => none
  | _ + 1, [] => none
  | fuel + 1, c :: cs =>
    if c = dquote then
      (parseStringBody (cs.length + 1) cs).map (fun r => (.str r.1, r.2))
    else if c = lbrace then
      let cs1 := skipWs cs
      match cs1 with
      | [] => none
      | c1 :: cs2 => if c1 = rbrace then some (.obj [], cs2) else parseMembers fuel [] cs1
    else if c = '[' then
      let cs1 := skipWs cs
      match cs1 with
      | [] => none
      | c1 :: cs2 => if c1 = ']' then some (.arr [], cs2) else parseElements fuel [] cs1
    else parseAtom (c :: cs)

/-- Object members from the first key onwards (input at a position where a
`"`-delimited key is required), accumulating into `acc` with dict-insert
semantics. -/
def parseMembers : ℕ → List (List Char × JVal) → List Char → Option (JVal × List Char)
  | 0, _, _ => none
  | _ + 1, _, [] => none
  | fuel + 1, acc, c :: cs =>
    if c = dquote then
      match parseStringBody (cs.length + 1) cs with
      | none => none
      | some (key, rest1) =>
        match skipWs rest1 with
        | [] => none
        | c1 :: rest2 =>
          if c1 = ':' then
            match parseValue fuel (skipWs rest2) with
            | none => none
            | some (v, rest3) =>
              let acc2 := objInsert acc key v
              match skipWs rest3 with
              | [] => none
              | c2 :: rest4 =>
                if c2 = ',' then parseMembers fuel acc2 (skipWs rest4)
                else if c2 = rbrace then some (.obj acc2, rest4)
                else none
          else none
    else none

/-- Array elements from the first element onwards, accumulating in order. -/
def parseElements : ℕ → List JVal → List Char → Option (JVal × List Char)
  | 0, _, _ => none
  | fuel + 1, acc, s =>
    match parseValue fuel s with
    | none => none
    | some (v, rest1) =>
      let acc2 := acc ++ [v]
      match skipWs rest1 with
      | [] => none
      | c2 :: rest2 =>
        if c2 = ',' then parseElements fuel acc2 (skipWs rest2)
        else if c2 = ']' then some (.arr acc2, rest2)
        else none

end

/-- `json.loads` on text: one value surrounded by optional whitespace;
anything left over is the `Extra data` error. -/
def jsonLoads (s : List Char) : Option JVal :=
  match parseValue (s.length + 1) (skipWs s) with
  | some (v, rest) => if skipWs rest = [] then some v else none
  | none => none

/-- A context in which the scanner's maximal-munch number match stops
exactly at the end of the number literal: the next character (if any)
cannot extend the match. -/
def numBoundary (rest : List Char) : Prop :=
  match rest with
  | [] => True
  | c :: _ => isDigitChar c = false ∧ c ≠ '.' ∧ c ≠ 'e' ∧ c ≠ 'E'

/-! ### UTF-8 and `json.loads` on bytes -/

/-- One scalar value at the head of a UTF-8 byte stream (CPython
`bytes.decode("utf-8")`, strict): rejects stray continuation bytes,
overlong forms, surrogates and values beyond `U+10FFFF`.  Returns the
character and the remaining bytes. -/
def utf8Head (b : ℕ) (bs : List ℕ) : Option (Char × List ℕ) :=
  if b < 0x80 then some (Char.ofNat b, bs)
  else if b < 0xC2 then none
  else if b < 0xE0 then
    match bs with
    | b2 :: bs2 =>
      if 0x80 ≤ b2 ∧ b2 < 0xC0 then
        some (Char.ofNat ((b - 0xC0) * 64 + (b2 - 0x80)), bs2)
      else none
    | [] => none
  else if b < 0xF0 then
    match bs with
    | b2 :: b3 :: bs3 =>
      if (0x80 ≤ b2 ∧ b2 < 0xC0) ∧ (0x80 ≤ b3 ∧ b3 < 0xC0) ∧
          (b = 0xE0 → 0xA0 ≤ b2) ∧ (b = 0xED → b2 < 0xA0) then
        some (Char.ofNat (((b - 0xE0) * 64 + (b2 - 0x80)) * 64 + (b3 - 0x80)), bs3)
      else none
    | _ => none
  else if b < 0xF5 then
    match bs with
    | b2 :: b3 :: b4 :: bs4 =>
      if (0x80 ≤ b2 ∧ b2 < 0xC0) ∧ (0x80 ≤ b3 ∧ b3 < 0xC0) ∧ (0x80 ≤ b4 ∧ b4 < 0xC0) ∧
          (b = 0xF0 → 0x90 ≤ b2) ∧ (b = 0xF4 → b2 < 0x90) then
        some (Char.ofNat ((((b - 0xF0) * 64 + (b2 - 0x80)) * 64 + (b3 - 0x80)) * 64 + (b4 - 0x80)),
              bs4)
      else none
    | _ => none
  else none

/-- Strict UTF-8 decoding, with fuel for the recursion; one fuel unit per
decoded character suffices because `utf8Head` always consumes its lead
byte, so `utf8Decode` passes the byte count. -/
def utf8DecodeGo : ℕ → List ℕ → Option (List Char)
  | _, [] => some []
  | 0, _ :: _ => none
  | fuel + 1, b :: bs =>
    match utf8Head b bs with
    | none => none
    | some (ch, rest) => (utf8DecodeGo fuel rest).map (ch :: ·)

/-- Strict UTF-8 decoding of a byte list. -/
def utf8Decode (bs : List ℕ) : Option (List Char) := utf8DecodeGo bs.length bs

/-- UTF-8 encoding of one character. -/
def utf8EncodeChar (c : Char) : List ℕ :=
  let n := c.toNat
  if n < 0x80 then [n]
  else if n < 0x800 then [0xC0 + n / 64, 0x80 + n % 64]
  else if n < 0x10000 then [0xE0 + n / 4096, 0x80 + n / 64 % 64, 0x80 + n % 64]
  else [0xF0 + n / 262144, 0x80 + n / 4096 % 64, 0x80 + n / 64 % 64, 0x80 + n % 64]

/-- UTF-8 bytes of a string. -/
def strBytes (s : List Char) : List ℕ := (s.map utf8EncodeChar).flatten

/-- `json.loads` applied to bytes: `json.detect_encoding` strips a UTF-8
BOM and selects an encoding, then the text is scanned.  Only the UTF-8
path is modelled (UTF-16/32 auto-detection from byte patterns is out of
scope); an undecodable byte sequence raises, i.e. yields `none`. -/
def jsonLoadsBytes (bs : List ℕ) : Option JVal :=
  let bs2 := if bs.take 3 = [0xEF, 0xBB, 0xBF] then bs.drop 3 else bs
  (utf8Decode bs2).bind jsonLoads

/-! ### `base64.urlsafe_b64decode` (non-strict `binascii.a2b_base64`)

`urlsafe_b64decode` translates `-`/`_` to `+`/`/` and calls `b64decode`
with `validate=False`, i.e. the non-strict `binascii.a2b_base64` machine:
characters outside the standard alphabet are discarded, `=` finishing a
quad of column 2 or 3 terminates the scan successfully, other `=` are
ignored, and a final quad column of 1, 2 or 3 without such padding is an
error.  Non-ASCII input raises (`str.encode("ascii")` fails). -/

inductive B64C where
  | pad
  | val (v : ℕ)
  | skip
  | err
deriving DecidableEq

/-- Classification of one input character for the base64 machine
(standard alphabet, after url-safe translation). -/
def b64Class (c : Char) : B64C :=
  let n := c.toNat
  if n ≥ 128 then .err
  else if c = '=' then .pad
  else if 65 ≤ n ∧ n ≤ 90 then .val (n - 65)
  else if 97 ≤ n ∧ n ≤ 122 then .val (n - 71)
  else if 48 ≤ n ∧ n ≤ 57 then .val (n + 4)
  else if c = '+' then .val 62
  else if c = '/' then .val 63
  else .skip

/-- The `binascii.a2b_base64` (non-strict) state machine.  `out` is the
output accumulator, `qp` the quad column (0–3), `left` the pending bits of
the previous character, `pads` the count of consecutive pad candidates at
column 2. -/
def machineGo : List Char → List ℕ → ℕ → ℕ → ℕ → Option (List ℕ)
  | [], out, qp, _, _ => if qp = 0 then some out else none
  | c :: cs, out, qp, left, pads =>
    match b64Class c with
    | .err => none
    | .skip => machineGo cs out qp left pads
    | .pad =>
      if qp = 3 then some out
      else if qp = 2 then
        if pads + 1 ≥ 2 then some out else machineGo cs out qp left (pads + 1)
      else machineGo cs out qp left pads
    | .val v =>
      match qp with
      | 0 => machineGo cs out 1 v 0
      | 1 => machineGo cs (out ++ [left * 4 + v / 16]) 2 (v % 16) 0
      | 2 => machineGo cs (out ++ [left * 16 + v / 4]) 3 (v % 4) 0
      | _ => machineGo cs (out ++ [left * 64 + v]) 0 0 0

/-- The `-`/`_` → `+`/`/` translation of `urlsafe_b64decode`. -/
def urlsafeTranslateChar (c : Char) : Char :=
  if c = '-' then '+' else if c = '_' then '/' else c

/-- Pad count added by `_decode`: `"=" * (-len(s) % 4)`. -/
def padFor (n : ℕ) : ℕ := (4 - n % 4) % 4

/-- `base64.urlsafe_b64decode` on an (already padded) string. -/
def b64decodePy (s : List Char) : Option (List ℕ) :=
  machineGo (s.map urlsafeTranslateChar) [] 0 0 0

/-! ### `BaseKey._decode` -/

/-- `str.split(".")`: split at every dot, keeping empty pieces. -/
def splitOnDot : List Char → List (List Char)
  | [] => [[]]
  | c :: cs =>
    if c = '.' then [] :: splitOnDot cs
    else
      match splitOnDot cs with
      | [] => [[c]]
      | p :: ps => (c :: p) :: ps

/-- One segment of `_decode`: add `"=" * (-len % 4)`, url-safe base64
decode, then `json.loads` on the bytes. -/
def segmentBytes (seg : List Char) : Option (List ℕ) :=
  b64decodePy (seg ++ List.replicate (padFor seg.length) '=')

/-- A segment decoded all the way to a JSON value. -/
def segmentToJson (seg : List Char) : Option JVal :=
  (segmentBytes seg).bind jsonLoadsBytes

/-- `BaseKey._decode` on a token string: split on `"."`, require exactly
three parts, decode the first two (header, payload); the third (signature)
part is never touched.  Any failure raises `RelevAITokenError`, modelled
as `none`. -/
def decodeToken (s : List Char) : Option (JVal × JVal) :=
  match splitOnDot s with
  | [hseg, pseg, _sig] =>
    match segmentToJson hseg, segmentToJson pseg with
    | some h, some p => some (h, p)
    | _, _ => none
  | _ => none

/-! ### Base64url encoding (specification side, for the round-trip claim)

The repository contains no encoder; these definitions spell out what the
specification means by "base64url encodings (padded or unpadded) of
JSON": standard base64url alphabet on the UTF-8 bytes of a `json.dumps`
rendering, with or without `=` padding. -/

/-- Base64 alphabet character of a sextet value `v < 64` (url-safe
alphabet: `-` and `_` at 62/63). -/
def valToChar (v : ℕ) : Char :=
  if v < 26 then Char.ofNat (65 + v)
  else if v < 52 then Char.ofNat (97 + (v - 26))
  else if v < 62 then Char.ofNat (48 + (v - 52))
  else if v = 62 then '-' else '_'

/-- Bytes to sextets, big-endian within each 3-byte group. -/
def bytesToSextets : List ℕ → List ℕ
  | x :: y :: z :: tl =>
    (x / 4) :: ((x % 4) * 16 + y / 16) :: ((y % 16) * 4 + z / 64) :: (z % 64) ::
      bytesToSextets tl
  | [x, y] => [x / 4, (x % 4) * 16 + y / 16, (y % 16) * 4]
  | [x] => [x / 4, (x % 4) * 16]
  | [] => []

/-- Sextets back to bytes: the strict base64 meaning of a data-character
sequence (final group of 2 or 3 sextets contributes 1 or 2 bytes, spare
low bits dropped as by `a2b_base64`). -/
def sextetsToBytes : List ℕ → List ℕ
  | a :: b :: c :: d :: tl =>
    (a * 4 + b / 16) :: ((b % 16) * 16 + c / 4) :: ((c % 4) * 64 + d) :: sextetsToBytes tl
  | [a, b] => [a * 4 + b / 16]
  | [a, b, c] => [a * 4 + b / 16, (b % 16) * 16 + c / 4]
  | _ => []

/-- Base64url encoding of a byte list, padded or unpadded. -/
def b64urlEncodeBytes (bs : List ℕ) (padded : Bool) : List Char :=
  let data := (bytesToSextets bs).map valToChar
  if padded then data ++ List.replicate (padFor data.length) '=' else data

/-- A three-segment token built from JSON header and payload values: the
base64url encoding of their `json.dumps` UTF-8 bytes, joined with the
signature by dots. -/
def encodeToken (h p : JVal) (sig : List Char) (padded : Bool) : List Char :=
  b64urlEncodeBytes (strBytes (dumpsVal h)) padded ++
    '.' :: b64urlEncodeBytes (strBytes (dumpsVal p)) padded ++ '.' :: sig

/-- Membership in the base64url alphabet (`A-Z a-z 0-9 - _`). -/
def isB64UrlChar (c : Char) : Bool :=
  let n := c.toNat
  if 65 ≤ n ∧ n ≤ 90 then true
  else if 97 ≤ n ∧ n ≤ 122 then true
  else if 48 ≤ n ∧ n ≤ 57 then true
  else c = '-' ∨ c = '_'

/-- Sextet value of a base64url alphabet character (junk elsewhere). -/
def urlCharVal (c : Char) : ℕ :=
  let n := c.toNat
  if 65 ≤ n ∧ n ≤ 90 then n - 65
  else if 97 ≤ n ∧ n ≤ 122 then n - 71
  else if 48 ≤ n ∧ n ≤ 57 then n + 4
  else if c = '-' then 62 else if c = '_' then 63 else 0

/-- Shape of a valid (possibly unpadded) base64url string as the spec
words it: alphabet characters followed by either no padding or exactly
the padding completing the last quad, and a data length that is not
`1 mod 4`. -/
def b64UrlShapeOk (seg : List Char) : Bool :=
  let data := seg.takeWhile (fun c => c ≠ '=')
  let pads := seg.drop data.length
  pads.all (fun c => c = '=') && data.all isB64UrlChar &&
    decide (data.length % 4 ≠ 1) &&
    (decide (pads.length = 0) || decide (pads.length = padFor data.length))

/-- The spec's "valid (possibly unpadded) base64url-encoded JSON": valid
shape, and the strictly decoded bytes parse as JSON. -/
def SpecValidSegment (seg : List Char) : Prop :=
  b64UrlShapeOk seg = true ∧
    (jsonLoadsBytes (sextetsToBytes ((seg.takeWhile (fun c => c ≠ '=')).map urlCharVal))).isSome = true

/-! ### The `BaseKey` manager state

Sequential embedding of `BaseKey` (`relevai/key/base.py`).  Times are
integer seconds; every occurrence of `time.time()` within one operation
is the operation's `now` parameter.  The HTTP world is passed in as the
response the token endpoint would give.  Hooks are modelled as observer
records: `live` is whether the weak reference still resolves at broadcast
time, `throws` whether calling the hook raises. -/

structure Hook where
  hid : ℕ
  live : Bool
  throws : Bool

structure KeyState where
  access_token : Option JVal
  expires_at : ℤ
  header : JVal
  claims : JVal
  safety_margin : ℤ
  max_attempts : ℕ
  alive : Bool
  /-- `self._thread`: `none` is Python `None`; `some b` a `Thread` whose
  `is_alive()` returns `b`. -/
  thread : Option Bool
  killSet : Bool
  hooks : List Hook

/-- `self.expires_in`: `self._expires_at - time.time()`. -/
def expires_in (st : KeyState) (now : ℤ) : ℤ := st.expires_at - now

/-- `self.is_running`: `self._thread is not None and self._thread.is_alive()`. -/
def is_running (st : KeyState) : Bool := st.thread = some true

/-- `self.restart()`: no-op when running or not configured alive;
otherwise clears the kill event and starts the refresher thread. -/
def restart (st : KeyState) : KeyState :=
  if is_running st ∨ ¬ st.alive then st
  else { st with killSet := false, thread := some true }

/-- `self.kill()`: the guard is `if not self.is_alive:`, which tests the
truthiness of the *bound method object* (the call parentheses are
missing), so it is always falsy and the early `return True` is dead code;
the method always proceeds to `self._kill_event.set()` and
`self._thread.join()`, and the latter raises `AttributeError` when
`self._thread` is `None` (thread never started).  `none` models the
raised exception. -/
def kill (st : KeyState) : Option (Bool × KeyState) :=
  match st.thread with
  | none => none
  | some _ => some (true, { st with killSet := true, thread := some false })

/-- A token-endpoint interaction: `ok` is whether
`response.raise_for_status()` passes, `body` the value `response.json()`
parses to (`none` when the body is not JSON). -/
structure HttpResp where
  ok : Bool
  body : Option JVal

/-- Assignment of a JSON field value to a Python attribute: JSON `null`
loads as Python `None`. -/
def pyStore (v : JVal) : Option JVal :=
  match v with
  | .null => none
  | v => some v

/-- `token_data[k]`: dict subscript; a missing key (`KeyError`) or a
non-dict body (`TypeError`) both raise. -/
def dictLookup (j : JVal) (k : List Char) : Option JVal :=
  match j with
  | .obj kvs => assocFind kvs k
  | _ => none
where
  assocFind : List (List Char × JVal) → List Char → Option JVal
    | [], _ => none
    | (k2, v) :: tl, k => if k2 = k then some v else assocFind tl k

/-- `time.time() + token_data["expires_in"]` needs a number; JSON
integers and booleans (Python `bool` is an `int`) add fine.  Non-integer
floats are outside the integral-time model. -/
def asNumZ (v : JVal) : Option ℤ :=
  match v with
  | .int n => some n
  | .bool b => some (if b then 1 else 0)
  | _ => none

/-- `self._decode()` as called on the stored `_access_token` attribute:
`None.split` or a non-`str` value raises (`AttributeError`), any other
failure is `_decode`'s own `RelevAITokenError`. -/
def decodeStored (tok : Option JVal) : Option (JVal × JVal) :=
  match tok with
  | some (.str s) => decodeToken s
  | _ => none

/-- The post-renewal hook broadcast `for hook in self._renewal_hooks:
hook(self)`: each live hook is called with the manager; a raising hook
aborts the loop (the exception propagates to `renew_token`'s handler).
Returns whether the loop completed and the call trace. -/
def broadcastHooks (st : KeyState) : List Hook → Bool × List (ℕ × KeyState)
  | [] => (true, [])
  | h :: hs =>
    if h.throws then (false, [(h.hid, st)])
    else
      let r := broadcastHooks st hs
      (r.1, (h.hid, st) :: r.2)

/-- Result of `renew_token`: `ok = false` models the raised
`RelevAITokenError`; `state` is the manager state afterwards (assignments
already executed stay); `invoked` the hook-call trace. -/
structure RenewResult where
  ok : Bool
  state : KeyState
  invoked : List (ℕ × KeyState)

/-- `self.renew_token()`, line by line: POST (the passed-in `resp`),
`raise_for_status`, `response.json()`, then under the lock the three
sequential assignments `_access_token`, `_expires_at`, `_header/_claims`,
then the hook loop.  The enclosing `try` turns any exception — including
one raised *between* the assignments or by a hook — into
`RelevAITokenError`, with whatever assignments already ran left in
place. -/
def renew_token (st : KeyState) (resp : HttpResp) (now : ℤ) : RenewResult :=
  if ¬ resp.ok then ⟨false, st, []⟩
  else
    match resp.body with
    | none => ⟨false, st, []⟩
    | some j =>
      match dictLookup j "access_token".data with
      | none => ⟨false, st, []⟩
      | some tv =>
        let st1 := { st with access_token := pyStore tv }
        match (dictLookup j "expires_in".data).bind asNumZ with
        | none => ⟨false, st1, []⟩
        | some e =>
          let st2 := { st1 with expires_at := now + e }
          match decodeStored st2.access_token with
          | none => ⟨false, st2, []⟩
          | some hc =>
            let st3 := { st2 with header := hc.1, claims := hc.2 }
            let br := broadcastHooks st3 (st3.hooks.filter (fun h => h.live))
            ⟨br.1, st3, br.2⟩

/-- Result of reading the `token` property: `result = none` models the
propagated exception, otherwise the returned `self._access_token`;
`renews` counts `renew_token` calls made. -/
structure AccessResult where
  result : Option (Option JVal)
  state : KeyState
  renews : ℕ
  invoked : List (ℕ × KeyState)

/-- The `token` property: renew when `self._access_token is None or
self.expires_in <= self._safety_margin`; then the self-healing restart
check; then return the stored token. -/
def tokenAccess (st : KeyState) (now : ℤ) (resp : HttpResp) : AccessResult :=
  if st.access_token.isNone ∨ expires_in st now ≤ st.safety_margin then
    let r := renew_token st resp now
    if r.ok then
      let st2 := if ¬ is_running r.state ∧ r.state.alive then restart r.state else r.state
      ⟨some st2.access_token, st2, 1, r.invoked⟩
    else ⟨none, r.state, 1, r.invoked⟩
  else
    let st2 := if ¬ is_running st ∧ st.alive then restart st else st
    ⟨some st2.access_token, st2, 0, []⟩

/-- `BaseKey.__init__`: sets `_expires_at = 0`, stores the supplied
token, decodes header/claims from it when it is truthy (a decode failure
propagates out of the constructor), then, when `alive`, calls
`renew_token()` (a failure propagates) followed by `restart()`.  Returns
the constructed state, the number of network renewals performed, and the
hook trace; `none` models a raised exception. -/
def initKey (safety_margin : ℤ) (max_attempts : ℕ) (alive : Bool)
    (access_token : Option (List Char)) (resp : HttpResp) (now : ℤ) :
    Option (KeyState × ℕ × List (ℕ × KeyState)) :=
  let tokVal : Option JVal := access_token.map .str
  let truthy : Bool := match access_token with
    | some (_ :: _) => true
    | _ => false
  let hc? : Option (JVal × JVal) :=
    if truthy then decodeStored tokVal else some (.obj [], .obj [])
  match hc? with
  | none => none
  | some hc =>
    let st0 : KeyState :=
      ⟨tokVal, 0, hc.1, hc.2, safety_margin, max_attempts, alive, none, false, []⟩
    if alive then
      let r := renew_token st0 resp now
      if r.ok then some (restart r.state, 1, r.invoked) else none
    else some (st0, 0, [])

/-! ### The background refresher loop -/

/-- Environment of one `while` iteration of `_token_refresher_loop`: the
kill-event value at the loop condition check, the `expires_in` reading
after the 5-second sleep, and whether `renew_token` (if reached)
succeeds. -/
structure LoopIter where
  killSet : Bool
  expiresIn : ℤ
  renewOk : Bool

inductive LoopExit where
  | maxed
  | killed
  /-- Environment exhausted while the loop would keep running (model
  artifact for a still-running loop). -/
  | pending

/-- `_token_refresher_loop` body: `while attempts < max_attempts and not
kill: sleep(5); if expires_in > margin: continue; try renew, attempts = 0
except: sleep(10); attempts += 1`.  Returns the final counter and why the
loop stopped. -/
def refresherLoop (maxA : ℕ) (margin : ℤ) : ℕ → List LoopIter → ℕ × LoopExit
  | a, es =>
    if maxA ≤ a then (a, .maxed)
    else
      match es with
      | [] => (a, .pending)
      | e :: es2 =>
        if e.killSet then (a, .killed)
        else if margin < e.expiresIn then refresherLoop maxA margin a es2
        else if e.renewOk then refresherLoop maxA margin 0 es2
        else refresherLoop maxA margin (a + 1) es2

/-! ### `chunkize` (`relevai/utils.py`) -/

/-- Python `range(0, stop, step)` for `step > 0`, as a list.  (`step = 0`
raises `ValueError` in Python and is outside this model; the claim about
`chunkize` quantifies over positive sizes only.) -/
def pyRange (stop step : ℕ) : List ℕ :=
  (List.range ((stop + step - 1) / step)).map (fun k => k * step)

/-- `chunkize(l, size)`: the list of slices `l[i:i+size]` for `i` in
`range(0, len(l), size)` (the generator, materialised in order). -/
def chunkize (l : List α) (size : ℕ) : List (List α) :=
  (pyRange l.length size).map (fun i => (l.drop i).take size)

/-- The fully updated manager state written by a successful `renew_token`
(all three assignments executed). -/
def renewedState (st : KeyState) (tv : JVal) (e : ℤ) (hc : JVal × JVal) (now : ℤ) : KeyState :=
  { st with access_token := pyStore tv, expires_at := now + e,
            header := hc.1, claims := hc.2 }

/-! ## Theorems -/

theorem natDigitsGo_congr : ∀ (n f1 f2 : ℕ), n < f1 → n < f2 →
    natDigitsGo f1 n = natDigitsGo f2 n := by
  intro n
  induction n using Nat.strong_induction_on with
  | _ n ih =>
  intro f1 f2 h1 h2
  match f1, f2 with
  | fa + 1, fb + 1 =>
    show (if n < 10 then [digitChar n] else natDigitsGo fa (n / 10) ++ [digitChar (n % 10)]) =
      (if n < 10 then [digitChar n] else natDigitsGo fb (n / 10) ++ [digitChar (n % 10)])
    by_cases hn : n < 10
    · rw [if_pos hn, if_pos hn]
    · rw [if_neg hn, if_neg hn,
        ih (n / 10) (Nat.div_lt_self (by omega) (by omega)) fa fb (by omega) (by omega)]

/-- One-step unfolding of `natDigits`. -/
theorem natDigits_step (n : ℕ) : natDigits n =
    if n < 10 then [digitChar n] else natDigits (n / 10) ++ [digitChar (n % 10)] := by
  show natDigitsGo (n + 1) n = _
  by_cases hn : n < 10
  · show (if n < 10 then _ else _) = _
    rw [if_pos hn, if_pos hn]
  · show (if n < 10 then _ else _) = _
    rw [if_neg hn, if_neg hn,
      natDigitsGo_congr (n / 10) n (n / 10 + 1) (by omega) (by omega)]
    rfl

/-! ### Hook broadcast lemmas -/

theorem broadcastHooks_all_ok (st : KeyState) :
    ∀ hs : List Hook, (∀ h ∈ hs, h.throws = false) →
      broadcastHooks st hs = (true, hs.map (fun h => (h.hid, st))) := by
  intro hs
  induction hs with
  | nil => intro _; rfl
  | cons h tl ih =>
    intro hall
    have hh : h.throws = false := hall h (by simp)
    have ht := ih (fun x hx => hall x (by simp [hx]))
    simp [broadcastHooks, hh, ht]

theorem broadcastHooks_first_throw (st : KeyState) :
    ∀ (pre : List Hook) (hk : Hook) (post : List Hook),
      (∀ h ∈ pre, h.throws = false) → hk.throws = true →
      broadcastHooks st (pre ++ hk :: post) =
        (false, pre.map (fun h => (h.hid, st)) ++ [(hk.hid, st)]) := by
  intro pre
  induction pre with
  | nil =>
    intro hk post _ hthrow
    simp [broadcastHooks, hthrow]
  | cons h tl ih =>
    intro hk post hall hthrow
    have hh : h.throws = false := hall h (by simp)
    have ht := ih hk post (fun x hx => hall x (by simp [hx])) hthrow
    simp [broadcastHooks, hh, ht]

/-! ### C1 — renewal failure modes -/

/-- C1 (counterexample): the claim states that every failing renewal
leaves the prior manager state completely unchanged.  For a 2xx response
whose JSON body has `access_token` but no `expires_in`, `renew_token`
raises (`ok = false`) yet `_access_token` has already been overwritten:
the prior token `"old"` is replaced by `"new"`. -/
theorem C1_counterexample :
    (renew_token
        ⟨some (.str "old".data), 100, .obj [], .obj [], 30, 5, true, some true, false, []⟩
        ⟨true, some (.obj [("access_token".data, .str "new".data)])⟩ 50).ok = false ∧
    (renew_token
        ⟨some (.str "old".data), 100, .obj [], .obj [], 30, 5, true, some true, false, []⟩
        ⟨true, some (.obj [("access_token".data, .str "new".data)])⟩ 50).state.access_token
      = some (.str "new".data) := by
  exact ⟨rfl, rfl⟩

/-- C1 (amended): every failing renewal raises `TokenError` and performs
no hook call, but the state is left unchanged only when the failure
happens before the first assignment (HTTP failure, non-JSON body, missing
`access_token` field).  A body whose `expires_in` is missing or
non-numeric leaves the new `access_token` already assigned, and an
undecodable new token leaves both `access_token` and `expires_at`
assigned with the stale `header`/`claims`. -/
theorem C1_renew_failure_modes (st : KeyState) (resp : HttpResp) (now : ℤ) :
    (resp.ok = false → renew_token st resp now = ⟨false, st, []⟩) ∧
    (resp.ok = true → resp.body = none → renew_token st resp now = ⟨false, st, []⟩) ∧
    (∀ j, resp.ok = true → resp.body = some j →
      dictLookup j "access_token".data = none →
      renew_token st resp now = ⟨false, st, []⟩) ∧
    (∀ j tv, resp.ok = true → resp.body = some j →
      dictLookup j "access_token".data = some tv →
      (dictLookup j "expires_in".data).bind asNumZ = none →
      renew_token st resp now = ⟨false, { st with access_token := pyStore tv }, []⟩) ∧
    (∀ j tv e, resp.ok = true → resp.body = some j →
      dictLookup j "access_token".data = some tv →
      (dictLookup j "expires_in".data).bind asNumZ = some e →
      decodeStored (pyStore tv) = none →
      renew_token st resp now =
        ⟨false, { st with access_token := pyStore tv, expires_at := now + e }, []⟩) := by
  refine ⟨?_, ?_, ?_, ?_, ?_⟩
  · intro h; simp [renew_token, h]
  · intro h1 h2; simp [renew_token, h1, h2]
  · intro j h1 h2 h3; simp [renew_token, h1, h2, h3]
  · intro j tv h1 h2 h3 h4; simp [renew_token, h1, h2, h3, h4]
  · intro j tv e h1 h2 h3 h4 h5; simp [renew_token, h1, h2, h3, h4, h5]

/-- C1 (witness): concrete instances of two failure modes of
`C1_renew_failure_modes` — an HTTP failure leaving the state unchanged,
and a response carrying an undecodable token, which leaves the new
`access_token` and `expires_at` assigned. -/
theorem C1_renew_failure_modes_witness :
    renew_token ⟨some (.str "old".data), 100, .obj [], .obj [], 30, 5, true, some true, false, []⟩
        ⟨false, none⟩ 50 =
      ⟨false, ⟨some (.str "old".data), 100, .obj [], .obj [], 30, 5, true, some true, false, []⟩, []⟩ ∧
    renew_token ⟨some (.str "old".data), 100, .obj [], .obj [], 30, 5, true, some true, false, []⟩
        ⟨true, some (.obj [("access_token".data, .str "nodots".data), ("expires_in".data, .int 60)])⟩ 50 =
      ⟨false,
       ⟨some (.str "nodots".data), 110, .obj [], .obj [], 30, 5, true, some true, false, []⟩, []⟩ := by
  constructor
  · exact (C1_renew_failure_modes _ _ _).1 rfl
  · exact (C1_renew_failure_modes _ _ _).2.2.2.2
      (.obj [("access_token".data, .str "nodots".data), ("expires_in".data, .int 60)])
      (.str "nodots".data) 60 rfl rfl rfl rfl rfl

/-! ### C2 — a hook that throws -/

/-- C2 (counterexample): the claim states a throwing hook never causes
`renew_token` to fail and never prevents other hooks from running.  With
two live hooks of which the first throws, `renew_token` raises
(`ok = false`) and the second hook is never invoked. -/
theorem C2_counterexample :
    (renew_token
        ⟨some (.str "old".data), 100, .obj [], .obj [], 30, 5, true, some true, false,
          [⟨7, true, true⟩, ⟨8, true, false⟩]⟩
        ⟨true, some (.obj [("access_token".data, .str "e30=.e30.S".data),
                           ("expires_in".data, .int 60)])⟩ 50).ok = false ∧
    (renew_token
        ⟨some (.str "old".data), 100, .obj [], .obj [], 30, 5, true, some true, false,
          [⟨7, true, true⟩, ⟨8, true, false⟩]⟩
        ⟨true, some (.obj [("access_token".data, .str "e30=.e30.S".data),
                           ("expires_in".data, .int 60)])⟩ 50).invoked.map Prod.fst = [7] := by
  exact ⟨rfl, rfl⟩

/-- C2 (amended): the critical section is unharmed — a throwing hook
leaves the fully renewed state in place (token, expiry, header, claims
all updated) — but the hook loop runs inside `renew_token`'s `try`, so
the first throwing live hook makes `renew_token` raise `TokenError` and
the live hooks after it are not invoked; the ones before it are invoked
exactly once with the manager. -/
theorem C2_hook_throw_raises (st : KeyState) (resp : HttpResp) (now : ℤ)
    (j tv : JVal) (e : ℤ) (hc : JVal × JVal) (pre : List Hook) (hk : Hook) (post : List Hook)
    (h1 : resp.ok = true) (h2 : resp.body = some j)
    (h3 : dictLookup j "access_token".data = some tv)
    (h4 : (dictLookup j "expires_in".data).bind asNumZ = some e)
    (h5 : decodeStored (pyStore tv) = some hc)
    (hfil : st.hooks.filter (fun h => h.live) = pre ++ hk :: post)
    (hpre : ∀ h2 ∈ pre, h2.throws = false) (hthrow : hk.throws = true) :
    renew_token st resp now =
      ⟨false, renewedState st tv e hc now,
       pre.map (fun h => (h.hid, renewedState st tv e hc now)) ++
         [(hk.hid, renewedState st tv e hc now)]⟩ := by
  simp [renew_token, h1, h2, h3, h4, h5, renewedState, hfil,
    broadcastHooks_first_throw _ pre hk post hpre hthrow]

/-- C2 (witness): concrete instance of `C2_hook_throw_raises` with one
non-throwing live hook before a throwing one. -/
theorem C2_hook_throw_raises_witness :
    renew_token
        ⟨some (.str "old".data), 100, .obj [], .obj [], 30, 5, true, some true, false,
          [⟨1, true, false⟩, ⟨2, true, true⟩]⟩
        ⟨true, some (.obj [("access_token".data, .str "e30=.e30.S".data),
                           ("expires_in".data, .int 60)])⟩ 50 =
      ⟨false,
       ⟨some (.str "e30=.e30.S".data), 110, .obj [], .obj [], 30, 5, true, some true, false,
          [⟨1, true, false⟩, ⟨2, true, true⟩]⟩,
       [(1, ⟨some (.str "e30=.e30.S".data), 110, .obj [], .obj [], 30, 5, true, some true, false,
          [⟨1, true, false⟩, ⟨2, true, true⟩]⟩),
        (2, ⟨some (.str "e30=.e30.S".data), 110, .obj [], .obj [], 30, 5, true, some true, false,
          [⟨1, true, false⟩, ⟨2, true, true⟩]⟩)]⟩ := by
  exact C2_hook_throw_raises
    ⟨some (.str "old".data), 100, .obj [], .obj [], 30, 5, true, some true, false,
      [⟨1, true, false⟩, ⟨2, true, true⟩]⟩
    ⟨true, some (.obj [("access_token".data, .str "e30=.e30.S".data),
                       ("expires_in".data, .int 60)])⟩ 50
    (.obj [("access_token".data, .str "e30=.e30.S".data), ("expires_in".data, .int 60)])
    (.str "e30=.e30.S".data) 60 (.obj [], .obj []) [⟨1, true, false⟩] ⟨2, true, true⟩ []
    rfl rfl rfl rfl rfl rfl (by decide) rfl

/-! ### C9 — the background refresher loop -/

/-- C9: in `_token_refresher_loop`, a successful renewal resets the
consecutive-failure counter to zero, a failed renewal increments it, an
iteration with `expires_in` above the margin leaves it unchanged, and the
loop exits exactly when the counter has reached `max_attempts` (terminal,
no self-restart: the function returns) or the kill event is set; below
the threshold and unkilled, it always continues. -/
theorem C9_refresher_loop (maxA : ℕ) (margin : ℤ) (a : ℕ) (e : LoopIter) (es : List LoopIter) :
    (maxA ≤ a → refresherLoop maxA margin a (e :: es) = (a, .maxed) ∧
      refresherLoop maxA margin a [] = (a, .maxed)) ∧
    (a < maxA → e.killSet = true → refresherLoop maxA margin a (e :: es) = (a, .killed)) ∧
    (a < maxA → e.killSet = false → margin < e.expiresIn →
      refresherLoop maxA margin a (e :: es) = refresherLoop maxA margin a es) ∧
    (a < maxA → e.killSet = false → e.expiresIn ≤ margin → e.renewOk = true →
      refresherLoop maxA margin a (e :: es) = refresherLoop maxA margin 0 es) ∧
    (a < maxA → e.killSet = false → e.expiresIn ≤ margin → e.renewOk = false →
      refresherLoop maxA margin a (e :: es) = refresherLoop maxA margin (a + 1) es) := by
  refine ⟨?_, ?_, ?_, ?_, ?_⟩
  · intro h
    constructor <;> · rw [refresherLoop]; simp [h]
  · intro h hk
    rw [refresherLoop]; simp [Nat.not_le.2 h, hk]
  · intro h hk hm
    rw [refresherLoop]; simp [Nat.not_le.2 h, hk, hm]
  · intro h hk hm hr
    rw [refresherLoop]; simp [Nat.not_le.2 h, hk, Int.not_lt.2 hm, hr]
  · intro h hk hm hr
    rw [refresherLoop]; simp [Nat.not_le.2 h, hk, Int.not_lt.2 hm, hr]

/-- C9 (witness): concrete instances — a success resets the counter, a
failure increments it, reaching `max_attempts` exits as `maxed`, a set
kill event exits as `killed`. -/
theorem C9_refresher_loop_witness :
    refresherLoop 3 30 2 [⟨false, 10, true⟩] = refresherLoop 3 30 0 [] ∧
    refresherLoop 3 30 2 [⟨false, 10, false⟩] = refresherLoop 3 30 3 [] ∧
    refresherLoop 3 30 3 [⟨false, 10, true⟩] = (3, .maxed) ∧
    refresherLoop 3 30 1 [⟨true, 10, true⟩] = (1, .killed) := by
  refine ⟨?_, ?_, ?_, ?_⟩
  · exact (C9_refresher_loop 3 30 2 ⟨false, 10, true⟩ []).2.2.2.1 (by decide) rfl (by decide) rfl
  · exact (C9_refresher_loop 3 30 2 ⟨false, 10, false⟩ []).2.2.2.2 (by decide) rfl (by decide) rfl
  · exact ((C9_refresher_loop 3 30 3 ⟨false, 10, true⟩ []).1 (by decide)).1
  · exact (C9_refresher_loop 3 30 1 ⟨true, 10, true⟩ []).2.1 (by decide) rfl

/-! ### C3 — construction with a pre-existing token -/

/-- C3 (counterexample): the claim states that supplying `accessToken`
skips the initial renewal and computes the initial expiration from the
token's own claims.  With a seeded token whose payload carries
`exp = 99`: under `alive = false` construction succeeds but `expires_at`
is `0` (the claims are decoded yet never consulted for expiration), and
under `alive = true` the constructor *does* perform the initial network
renewal — here the endpoint fails, so construction itself raises even
though a valid token was supplied. -/
theorem C3_counterexample :
    initKey 30 5 false (some "e30=.eyJleHAiOiA5OX0.SIG".data) ⟨false, none⟩ 0 =
      some (⟨some (.str "e30=.eyJleHAiOiA5OX0.SIG".data), 0, .obj [],
              .obj [("exp".data, .int 99)], 30, 5, false, none, false, []⟩, 0, []) ∧
    initKey 30 5 true (some "e30=.eyJleHAiOiA5OX0.SIG".data) ⟨false, none⟩ 0 = none := by
  exact ⟨rfl, rfl⟩

/-- C3 (amended): supplying a non-empty `access_token` seeds the stored
token and decodes `header`/`claims` from it (an undecodable seed makes
the constructor raise), but `expires_at` is always initialised to `0` —
the token is treated as already expired no matter what its claims say —
and the initial renewal is skipped only when `alive = false`; with
`alive = true` the constructor performs a network renewal exactly as it
would without a seed. -/
theorem C3_seeded_init (margin : ℤ) (maxA : ℕ) (c : Char) (cs : List Char)
    (resp : HttpResp) (now : ℤ) :
    (∀ hc, decodeToken (c :: cs) = some hc →
      initKey margin maxA false (some (c :: cs)) resp now =
        some (⟨some (.str (c :: cs)), 0, hc.1, hc.2, margin, maxA, false, none, false, []⟩,
              0, [])) ∧
    (decodeToken (c :: cs) = none →
      initKey margin maxA false (some (c :: cs)) resp now = none) ∧
    (∀ hc, decodeToken (c :: cs) = some hc →
      initKey margin maxA true (some (c :: cs)) resp now =
        (if (renew_token
              ⟨some (.str (c :: cs)), 0, hc.1, hc.2, margin, maxA, true, none, false, []⟩
              resp now).ok then
          some (restart (renew_token
              ⟨some (.str (c :: cs)), 0, hc.1, hc.2, margin, maxA, true, none, false, []⟩
              resp now).state, 1,
            (renew_token
              ⟨some (.str (c :: cs)), 0, hc.1, hc.2, margin, maxA, true, none, false, []⟩
              resp now).invoked)
        else none)) := by
  refine ⟨?_, ?_, ?_⟩
  · intro hc hdec
    simp [initKey, decodeStored, hdec]
  · intro hdec
    simp [initKey, decodeStored, hdec]
  · intro hc hdec
    simp [initKey, decodeStored, hdec]

/-- C3 (witness): concrete instances of `C3_seeded_init` — a decodable
seed with `alive = false` yields `expires_at = 0` and no renewal, an
undecodable seed makes construction fail. -/
theorem C3_seeded_init_witness :
    initKey 30 5 false (some "e30=.e30.SIG".data) ⟨false, none⟩ 7 =
      some (⟨some (.str "e30=.e30.SIG".data), 0, .obj [], .obj [], 30, 5, false, none,
             false, []⟩, 0, []) ∧
    initKey 30 5 false (some "nodots".data) ⟨false, none⟩ 7 = none := by
  constructor
  · exact (C3_seeded_init 30 5 'e' "30=.e30.SIG".data ⟨false, none⟩ 7).1
      (.obj [], .obj []) rfl
  · exact (C3_seeded_init 30 5 'n' "odots".data ⟨false, none⟩ 7).2.1 rfl

/-! ### C4 — `kill()` with no thread -/

/-- C4: the claim states `kill()` is safe and idempotent in every state,
including when the refresher thread was never started, returning `True`
without raising.  The guard `if not self.is_alive:` tests the bound
method object itself (always truthy), so it never returns early, and on
a manager constructed with `alive = False` — whose `_thread` is `None` —
`self._thread.join()` raises `AttributeError`.  The code contradicts the
guard's evident intent (`not self.is_alive()`), so this is a code bug at
input "construct with `alive=False`, then call `kill()`". -/
theorem C4_kill_never_started_raises :
    initKey 30 5 false none ⟨true, none⟩ 0 =
      some (⟨none, 0, .obj [], .obj [], 30, 5, false, none, false, []⟩, 0, []) ∧
    kill ⟨none, 0, .obj [], .obj [], 30, 5, false, none, false, []⟩ = none ∧
    kill ⟨none, 0, .obj [], .obj [], 30, 5, false, some true, false, []⟩ =
      some (true, ⟨none, 0, .obj [], .obj [], 30, 5, false, some false, true, []⟩) := by
  exact ⟨rfl, rfl, rfl⟩

/-! ### C5 — the `token` property's renewal condition -/

/-- C5: reading `token` triggers a renewal if and only if
`_access_token` is `None` or `expires_in ≤ safety_margin`, and then
exactly one; otherwise no renewal happens, no hook fires, and the stored
token is returned with the credential state unchanged. -/
theorem C5_token_renewal_iff (st : KeyState) (now : ℤ) (resp : HttpResp) :
    ((st.access_token.isNone = true ∨ expires_in st now ≤ st.safety_margin) →
      (tokenAccess st now resp).renews = 1) ∧
    (¬ (st.access_token.isNone = true ∨ expires_in st now ≤ st.safety_margin) →
      (tokenAccess st now resp).renews = 0 ∧
      (tokenAccess st now resp).result = some st.access_token ∧
      (tokenAccess st now resp).state.access_token = st.access_token ∧
      (tokenAccess st now resp).state.expires_at = st.expires_at ∧
      (tokenAccess st now resp).state.header = st.header ∧
      (tokenAccess st now resp).state.claims = st.claims ∧
      (tokenAccess st now resp).invoked = []) := by
  constructor
  · intro hcond
    simp only [tokenAccess, if_pos hcond]
    by_cases hok : (renew_token st resp now).ok <;> simp [hok]
  · intro hcond
    have hp : (restart st).access_token = st.access_token ∧
        (restart st).expires_at = st.expires_at ∧ (restart st).header = st.header ∧
        (restart st).claims = st.claims := by
      unfold restart; split <;> simp
    simp only [tokenAccess, if_neg hcond]
    split <;> simp [hp.1, hp.2.1, hp.2.2.1, hp.2.2.2]

/-- C5 (witness): a manager with no token renews exactly once; a manager
with a fresh token renews zero times and returns it unchanged. -/
theorem C5_token_renewal_iff_witness :
    (tokenAccess ⟨none, 0, .obj [], .obj [], 30, 5, false, none, false, []⟩ 0
        ⟨false, none⟩).renews = 1 ∧
    (tokenAccess ⟨some (.str "tok".data), 1000, .obj [], .obj [], 30, 5, false, none, false, []⟩
        0 ⟨false, none⟩).renews = 0 ∧
    (tokenAccess ⟨some (.str "tok".data), 1000, .obj [], .obj [], 30, 5, false, none, false, []⟩
        0 ⟨false, none⟩).result = some (some (.str "tok".data)) := by
  refine ⟨?_, ?_, ?_⟩
  · exact (C5_token_renewal_iff ⟨none, 0, .obj [], .obj [], 30, 5, false, none, false, []⟩ 0
      ⟨false, none⟩).1 (by decide)
  · exact ((C5_token_renewal_iff
      ⟨some (.str "tok".data), 1000, .obj [], .obj [], 30, 5, false, none, false, []⟩ 0
      ⟨false, none⟩).2 (by decide)).1
  · exact ((C5_token_renewal_iff
      ⟨some (.str "tok".data), 1000, .obj [], .obj [], 30, 5, false, none, false, []⟩ 0
      ⟨false, none⟩).2 (by decide)).2.1

/-! ### C6 — successful renewal postcondition -/

/-- C6: after a successful `renew_token` in which the endpoint returned
`expires_in = e`, the new expiration satisfies `expires_at = now + e` —
so `secondsUntilExpiry` read at `now` equals `e` and lies in `[e − ε, e]`
for every `ε ≥ 0` — and every currently-registered live hook is invoked
exactly once, with the renewed manager as sole argument, in registration
order. -/
theorem C6_renew_success (st : KeyState) (resp : HttpResp) (now : ℤ)
    (j tv : JVal) (e : ℤ) (hc : JVal × JVal)
    (h1 : resp.ok = true) (h2 : resp.body = some j)
    (h3 : dictLookup j "access_token".data = some tv)
    (h4 : (dictLookup j "expires_in".data).bind asNumZ = some e)
    (h5 : decodeStored (pyStore tv) = some hc)
    (hall : ∀ h ∈ st.hooks.filter (fun h => h.live), h.throws = false) :
    renew_token st resp now =
      ⟨true, renewedState st tv e hc now,
       (st.hooks.filter (fun h => h.live)).map
         (fun h => (h.hid, renewedState st tv e hc now))⟩ ∧
    (renewedState st tv e hc now).expires_at = now + e ∧
    expires_in (renewedState st tv e hc now) now = e ∧
    (∀ eps : ℤ, 0 ≤ eps →
      e - eps ≤ expires_in (renewedState st tv e hc now) now ∧
      expires_in (renewedState st tv e hc now) now ≤ e) := by
  refine ⟨?_, ?_, ?_, ?_⟩
  · simp [renew_token, h1, h2, h3, h4, h5, renewedState,
      broadcastHooks_all_ok _ _ hall]
  · simp [renewedState]
  · simp [renewedState, expires_in]
  · intro eps heps
    refine ⟨?_, ?_⟩ <;> simp only [renewedState, expires_in] <;> omega

/-- C6 (witness): concrete successful renewal with one live hook and one
dead one: `expires_at = 50 + 60`, the live hook invoked once with the
renewed manager, the dead hook skipped. -/
theorem C6_renew_success_witness :
    renew_token
        ⟨some (.str "old".data), 100, .obj [], .obj [], 30, 5, true, some true, false,
          [⟨3, true, false⟩, ⟨4, false, true⟩]⟩
        ⟨true, some (.obj [("access_token".data, .str "e30=.e30.S".data),
                           ("expires_in".data, .int 60)])⟩ 50 =
      ⟨true,
       ⟨some (.str "e30=.e30.S".data), 110, .obj [], .obj [], 30, 5, true, some true, false,
          [⟨3, true, false⟩, ⟨4, false, true⟩]⟩,
       [(3, ⟨some (.str "e30=.e30.S".data), 110, .obj [], .obj [], 30, 5, true, some true,
            false, [⟨3, true, false⟩, ⟨4, false, true⟩]⟩)]⟩ := by
  exact (C6_renew_success
    ⟨some (.str "old".data), 100, .obj [], .obj [], 30, 5, true, some true, false,
      [⟨3, true, false⟩, ⟨4, false, true⟩]⟩
    ⟨true, some (.obj [("access_token".data, .str "e30=.e30.S".data),
                       ("expires_in".data, .int 60)])⟩ 50
    (.obj [("access_token".data, .str "e30=.e30.S".data), ("expires_in".data, .int 60)])
    (.str "e30=.e30.S".data) 60 (.obj [], .obj [])
    rfl rfl rfl rfl rfl (by decide)).1

/-! ### C10 — `chunkize` -/

theorem chunkize_nil (n : ℕ) (hn : 0 < n) : chunkize ([] : List α) n = [] := by
  have h0 : (n - 1) / n = 0 := Nat.div_eq_of_lt (by omega)
  simp [chunkize, pyRange, h0]

theorem chunkize_cons_eq (l : List α) (n : ℕ) (hl : l ≠ []) (hn : 0 < n) :
    chunkize l n = l.take n :: chunkize (l.drop n) n := by
  have hlen : 0 < l.length := List.length_pos.2 hl
  have hm : (l.length + n - 1) / n = (l.length - n + n - 1) / n + 1 := by
    rcases le_or_lt l.length n with hle | hgt
    · have h1 : l.length - n = 0 := by omega
      have h2 : (0 + n - 1) / n = 0 := Nat.div_eq_of_lt (by omega)
      have h3 : (l.length + n - 1) / n = 1 := Nat.div_eq_of_lt_le (by omega) (by omega)
      rw [h1, h3, h2]
    · have h1 : l.length + n - 1 = (l.length - n + n - 1) + n := by omega
      rw [h1, Nat.add_div_right _ hn]
  have hdroplen : (l.drop n).length = l.length - n := by simp
  simp only [chunkize, pyRange, hm, hdroplen, List.range_succ_eq_map, List.map_cons,
    List.map_map, Nat.zero_mul, List.drop_zero]
  congr 1
  apply List.map_congr_left
  intro k _
  simp only [Function.comp_apply, Nat.succ_mul, List.drop_drop]
  congr 2
  omega

theorem chunkize_spec (len : ℕ) : ∀ (l : List α), l.length = len → ∀ (n : ℕ), 0 < n →
    (chunkize l n).flatten = l ∧
    (∀ c ∈ chunkize l n, c ≠ [] ∧ c.length ≤ n) ∧
    (∀ i (h : i + 1 < (chunkize l n).length),
      ((chunkize l n).get ⟨i, Nat.lt_of_succ_lt h⟩).length = n) := by
  induction len using Nat.strong_induction_on with
  | _ len ih =>
  intro l hlen n hn
  rcases hl : l with _ | ⟨a, tl⟩
  · simp [chunkize_nil n hn]
  · rw [← hl]
    have hlne : l ≠ [] := by rw [hl]; simp
    have hlpos : 0 < l.length := List.length_pos.2 hlne
    rw [chunkize_cons_eq l n hlne hn]
    have hdlt : (l.drop n).length < len := by
      simp only [List.length_drop]
      omega
    have ihd := ih (l.drop n).length (by omega) (l.drop n) rfl n hn
    refine ⟨?_, ?_, ?_⟩
    · simp only [List.flatten_cons, ihd.1, List.take_append_drop]
    · intro c hc
      rcases List.mem_cons.1 hc with hc2 | hc2
      · subst hc2
        constructor
        · simp only [ne_eq, List.take_eq_nil_iff]
          push_neg
          exact ⟨by omega, hlne⟩
        · simp only [List.length_take]
          omega
      · exact ihd.2.1 c hc2
    · intro i hi
      match i with
      | 0 =>
        simp only [List.get]
        have hrest : chunkize (l.drop n) n ≠ [] := by
          intro hemp
          simp only [List.length_cons, hemp, List.length_nil] at hi
          omega
        have hdne : l.drop n ≠ [] := by
          intro hdnil
          exact hrest (by rw [hdnil]; exact chunkize_nil n hn)
        have hgt : n < l.length := by
          by_contra hle
          exact hdne (List.drop_eq_nil_of_le (by omega))
        simp only [List.length_take]
        omega
      | Nat.succ i2 =>
        simp only [List.get_cons_succ]
        exact ihd.2.2 i2 (by simpa using hi)

/-- C10: for every list and positive chunk size, the chunks of
`chunkize` concatenate back to the list in order, every chunk is
non-empty of length at most `n`, and every chunk except possibly the
last has length exactly `n`. -/
theorem C10_chunkize (l : List α) (n : ℕ) (hn : 0 < n) :
    (chunkize l n).flatten = l ∧
    (∀ c ∈ chunkize l n, c ≠ [] ∧ c.length ≤ n) ∧
    (∀ i (h : i + 1 < (chunkize l n).length),
      ((chunkize l n).get ⟨i, Nat.lt_of_succ_lt h⟩).length = n) :=
  chunkize_spec l.length l rfl n hn

/-- C10 (witness): `chunkize` on a concrete list and size. -/
theorem C10_chunkize_witness :
    (chunkize [1, 2, 3, 4, 5] 2).flatten = [1, 2, 3, 4, 5] ∧
    (∀ c ∈ chunkize [1, 2, 3, 4, 5] 2, c ≠ [] ∧ c.length ≤ 2) ∧
    (∀ i (h : i + 1 < (chunkize [1, 2, 3, 4, 5] 2).length),
      ((chunkize [1, 2, 3, 4, 5] 2).get ⟨i, Nat.lt_of_succ_lt h⟩).length = 2) :=
  C10_chunkize [1, 2, 3, 4, 5] 2 (by decide)

/-! ### Base64 machine lemmas -/

theorem b64Class_eq_pad : b64Class '=' = .pad := rfl

theorem machineGo_val0 (c : Char) (v : ℕ) (h : b64Class c = .val v)
    (cs : List Char) (out : List ℕ) (left pads : ℕ) :
    machineGo (c :: cs) out 0 left pads = machineGo cs out 1 v 0 := by
  simp [machineGo, h]

theorem machineGo_val1 (c : Char) (v : ℕ) (h : b64Class c = .val v)
    (cs : List Char) (out : List ℕ) (left pads : ℕ) :
    machineGo (c :: cs) out 1 left pads =
      machineGo cs (out ++ [left * 4 + v / 16]) 2 (v % 16) 0 := by
  simp [machineGo, h]

theorem machineGo_val2 (c : Char) (v : ℕ) (h : b64Class c = .val v)
    (cs : List Char) (out : List ℕ) (left pads : ℕ) :
    machineGo (c :: cs) out 2 left pads =
      machineGo cs (out ++ [left * 16 + v / 4]) 3 (v % 4) 0 := by
  simp [machineGo, h]

theorem machineGo_val3 (c : Char) (v : ℕ) (h : b64Class c = .val v)
    (cs : List Char) (out : List ℕ) (left pads : ℕ) :
    machineGo (c :: cs) out 3 left pads =
      machineGo cs (out ++ [left * 64 + v]) 0 0 0 := by
  simp [machineGo, h]

theorem machineGo_pad2_first (cs : List Char) (out : List ℕ) (left : ℕ) :
    machineGo ('=' :: cs) out 2 left 0 = machineGo cs out 2 left 1 := by
  simp [machineGo, b64Class_eq_pad]

theorem machineGo_pad2_second (cs : List Char) (out : List ℕ) (left : ℕ) :
    machineGo ('=' :: cs) out 2 left 1 = some out := by
  simp [machineGo, b64Class_eq_pad]

theorem machineGo_pad3 (cs : List Char) (out : List ℕ) (left pads : ℕ) :
    machineGo ('=' :: cs) out 3 left pads = some out := by
  simp [machineGo, b64Class_eq_pad]

/-- Running the `a2b_base64` machine from column 0 over data characters
classified as the sextets `vs`, followed by the padding `_decode` adds,
produces exactly the strict base64 meaning of `vs` appended to the
accumulator, provided the data length is not `1 mod 4`. -/
theorem machineGo_data : ∀ (n : ℕ) (cs : List Char) (vs : List ℕ) (out : List ℕ),
    cs.length ≤ n → cs.map b64Class = vs.map B64C.val → vs.length % 4 ≠ 1 →
    machineGo (cs ++ List.replicate (padFor vs.length) '=') out 0 0 0 =
      some (out ++ sextetsToBytes vs) := by
  intro n
  induction n with
  | zero =>
    intro cs vs out hlen hmap hmod
    have hcs : cs = [] := List.length_eq_zero.1 (by omega)
    subst hcs
    cases vs with
    | nil => simp [machineGo, padFor, sextetsToBytes]
    | cons a tl => simp at hmap
  | succ n ih =>
    intro cs vs out hlen hmap hmod
    have hlens : cs.length = vs.length := by
      have := congrArg List.length hmap
      simpa using this
    rcases vs with _ | ⟨a, _ | ⟨b, _ | ⟨c3, _ | ⟨d, vs'⟩⟩⟩⟩
    · have hcs : cs = [] := List.length_eq_zero.1 (by simpa using hlens)
      subst hcs
      simp [machineGo, padFor, sextetsToBytes]
    · simp [padFor] at hmod
    · -- two data sextets, two pads
      rcases cs with _ | ⟨c1, _ | ⟨c2, cs'⟩⟩ <;> simp at hlens
      subst hlens
      simp only [List.map_cons, List.map_nil, List.cons.injEq] at hmap
      obtain ⟨h1, h2, -⟩ := hmap
      show machineGo (c1 :: c2 :: List.replicate (padFor 2) '=') out 0 0 0 = _
      rw [show padFor 2 = 2 from rfl]
      rw [show List.replicate 2 '=' = ['=', '='] from rfl]
      rw [machineGo_val0 c1 a h1, machineGo_val1 c2 b h2, machineGo_pad2_first,
        machineGo_pad2_second]
      simp [sextetsToBytes]
    · -- three data sextets, one pad
      rcases cs with _ | ⟨c1, _ | ⟨c2, _ | ⟨cc, cs'⟩⟩⟩ <;> simp at hlens
      subst hlens
      simp only [List.map_cons, List.map_nil, List.cons.injEq] at hmap
      obtain ⟨h1, h2, h3, -⟩ := hmap
      show machineGo (c1 :: c2 :: cc :: List.replicate (padFor 3) '=') out 0 0 0 = _
      rw [show padFor 3 = 1 from rfl]
      rw [show List.replicate 1 '=' = ['='] from rfl]
      rw [machineGo_val0 c1 a h1, machineGo_val1 c2 b h2, machineGo_val2 cc c3 h3,
        machineGo_pad3]
      simp [sextetsToBytes]
    · -- a full quad then the rest
      rcases cs with _ | ⟨c1, _ | ⟨c2, _ | ⟨cc, _ | ⟨c4, cs'⟩⟩⟩⟩ <;> simp at hlens
      simp only [List.map_cons, List.cons.injEq] at hmap
      obtain ⟨h1, h2, h3, h4, hrest⟩ := hmap
      have hmod' : vs'.length % 4 ≠ 1 := by
        simp only [List.length_cons] at hmod ⊢
        omega
      have hpad : padFor (a :: b :: c3 :: d :: vs').length = padFor vs'.length := by
        simp only [padFor, List.length_cons]
        omega
      rw [hpad]
      show machineGo (c1 :: c2 :: cc :: c4 :: (cs' ++ _)) out 0 0 0 = _
      simp only [List.length_cons] at hlen
      rw [machineGo_val0 c1 a h1, machineGo_val1 c2 b h2, machineGo_val2 cc c3 h3,
        machineGo_val3 c4 d h4]
      rw [ih cs' vs' _ (by omega) hrest hmod']
      simp [sextetsToBytes]

/-- A base64url alphabet character, translated by `urlsafe_b64decode`, is
classified as a data character with its sextet value. -/
theorem b64Class_translate_url (c : Char) (h : isB64UrlChar c = true) :
    b64Class (urlsafeTranslateChar c) = .val (urlCharVal c) := by
  by_cases hcm : c = '-'
  · subst hcm; rfl
  by_cases hcu : c = '_'
  · subst hcu; rfl
  have htr : urlsafeTranslateChar c = c := by
    unfold urlsafeTranslateChar
    rw [if_neg hcm, if_neg hcu]
  rw [htr]
  unfold isB64UrlChar at h
  by_cases h1 : 65 ≤ c.toNat ∧ c.toNat ≤ 90
  · have hq : c ≠ '=' := by
      intro he
      subst he
      exact absurd h1 (by decide)
    unfold b64Class urlCharVal
    rw [if_neg (by omega : ¬ c.toNat ≥ 128), if_neg hq, if_pos h1, if_pos h1]
  by_cases h2 : 97 ≤ c.toNat ∧ c.toNat ≤ 122
  · have hq : c ≠ '=' := by
      intro he
      subst he
      exact absurd h2 (by decide)
    unfold b64Class urlCharVal
    rw [if_neg (by omega : ¬ c.toNat ≥ 128), if_neg hq, if_neg h1, if_neg h1, if_pos h2,
      if_pos h2]
  by_cases h3 : 48 ≤ c.toNat ∧ c.toNat ≤ 57
  · have hq : c ≠ '=' := by
      intro he
      subst he
      exact absurd h3 (by decide)
    unfold b64Class urlCharVal
    rw [if_neg (by omega : ¬ c.toNat ≥ 128), if_neg hq, if_neg h1, if_neg h1, if_neg h2,
      if_neg h2, if_pos h3, if_pos h3]
  · rw [if_neg h1, if_neg h2, if_neg h3] at h
    simp only [decide_eq_true_eq] at h
    rcases h with h | h
    · exact absurd h hcm
    · exact absurd h hcu

/-- The decomposition `seg = data ++ pads` behind `b64UrlShapeOk`. -/
theorem seg_decomp (seg : List Char) :
    seg = seg.takeWhile (fun c => c ≠ '=') ++
      seg.drop (seg.takeWhile (fun c => c ≠ '=')).length := by
  have hp : seg.takeWhile (fun c => c ≠ '=') <+: seg := List.takeWhile_prefix _
  have ht := List.prefix_iff_eq_take.mp hp
  conv_lhs => rw [← List.take_append_drop (seg.takeWhile (fun c => c ≠ '=')).length seg]
  rw [← ht]

/-- On a shape-valid segment, `_decode`'s pad-then-lenient-decode agrees
with the strict base64url decoding of the data characters. -/
theorem segmentBytes_of_shape (seg : List Char) (h : b64UrlShapeOk seg = true) :
    segmentBytes seg =
      some (sextetsToBytes ((seg.takeWhile (fun c => c ≠ '=')).map urlCharVal)) := by
  set data := seg.takeWhile (fun c => c ≠ '=') with hdata_def
  set pads := seg.drop data.length with hpads_def
  unfold b64UrlShapeOk at h
  simp only [← hdata_def, ← hpads_def, Bool.and_eq_true, List.all_eq_true,
    decide_eq_true_eq, Bool.or_eq_true] at h
  obtain ⟨⟨⟨hpads, hdata⟩, hmod⟩, hplen⟩ := h
  have hseg : seg = data ++ pads := seg_decomp seg
  have hpadrep : pads = List.replicate pads.length '=' :=
    List.eq_replicate_iff.mpr ⟨rfl, hpads⟩
  have hplen2 : pads.length + padFor (data.length + pads.length) = padFor data.length := by
    rcases hplen with h0 | hp
    · rw [h0]
      unfold padFor
      omega
    · rw [hp]
      unfold padFor
      omega
  have hlist : seg ++ List.replicate (padFor seg.length) '=' =
      data ++ List.replicate (padFor data.length) '=' := by
    conv_lhs => rw [hseg]
    rw [List.length_append, List.append_assoc]
    conv_lhs => rw [hpadrep]
    simp only [List.length_replicate, ← List.replicate_add, hplen2]
  unfold segmentBytes b64decodePy
  rw [hlist, List.map_append]
  have htr_pad : (List.replicate (padFor data.length) '=').map urlsafeTranslateChar =
      List.replicate (padFor data.length) '=' := by
    rw [List.map_replicate]
    rfl
  rw [htr_pad]
  have hmap : (data.map urlsafeTranslateChar).map b64Class =
      (data.map urlCharVal).map B64C.val := by
    simp only [List.map_map]
    apply List.map_congr_left
    intro c hc
    simp only [Function.comp_apply]
    exact b64Class_translate_url c (hdata c hc)
  have hvslen : (data.map urlCharVal).length = data.length := by simp
  have hmach := machineGo_data (data.map urlsafeTranslateChar).length
    (data.map urlsafeTranslateChar) (data.map urlCharVal) [] le_rfl hmap
    (by rw [hvslen]; exact hmod)
  rw [hvslen] at hmach
  rw [hmach]
  simp

theorem segmentToJson_of_shape (seg : List Char) (h : b64UrlShapeOk seg = true) :
    segmentToJson seg =
      jsonLoadsBytes (sextetsToBytes ((seg.takeWhile (fun c => c ≠ '=')).map urlCharVal)) := by
  unfold segmentToJson
  rw [segmentBytes_of_shape seg h]
  rfl

theorem shape_no_dot (seg : List Char) (h : b64UrlShapeOk seg = true) : '.' ∉ seg := by
  intro hmem
  unfold b64UrlShapeOk at h
  simp only [Bool.and_eq_true, List.all_eq_true, decide_eq_true_eq, Bool.or_eq_true] at h
  obtain ⟨⟨⟨hpads, hdata⟩, -⟩, -⟩ := h
  have hseg := seg_decomp seg
  rw [hseg] at hmem
  rcases List.mem_append.1 hmem with hm | hm
  · have := hdata _ hm
    exact absurd this (by decide)
  · have := hpads _ hm
    exact absurd this (by decide)

/-! ### `str.split(".")` lemmas -/

theorem splitOnDot_no_dot (l : List Char) (h : '.' ∉ l) : splitOnDot l = [l] := by
  induction l with
  | nil => rfl
  | cons c cs ih =>
    have hc : c ≠ '.' := by intro he; exact h (by simp [he])
    have ht := ih (fun hm => h (by simp [hm]))
    simp [splitOnDot, hc, ht]

theorem splitOnDot_append_dot (l r : List Char) (h : '.' ∉ l) :
    splitOnDot (l ++ '.' :: r) = l :: splitOnDot r := by
  induction l with
  | nil => simp [splitOnDot]
  | cons c cs ih =>
    have hc : c ≠ '.' := by intro he; exact h (by simp [he])
    have ht := ih (fun hm => h (by simp [hm]))
    simp [splitOnDot, hc, ht]

theorem splitOnDot_three (a b c : List Char) (ha : '.' ∉ a) (hb : '.' ∉ b) (hc : '.' ∉ c) :
    splitOnDot (a ++ '.' :: b ++ '.' :: c) = [a, b, c] := by
  rw [show a ++ '.' :: b ++ '.' :: c = a ++ '.' :: (b ++ '.' :: c) by simp]
  rw [splitOnDot_append_dot a _ ha, splitOnDot_append_dot b _ hb, splitOnDot_no_dot c hc]

/-! ### C7 — the decode failure condition -/

/-- C7 (counterexample): the claim says decoding fails *exactly* when a
segment is not valid (possibly unpadded) base64url JSON.  The header
segment `e30=====` is not valid base64url — five padding characters —
yet CPython's lenient `a2b_base64` stops at the first full-quad pad, so
`_decode` succeeds on the whole token. -/
theorem C7_counterexample :
    decodeToken "e30=====.e30.x".data = some (.obj [], .obj []) ∧
    ¬ SpecValidSegment "e30=====".data := by
  refine ⟨rfl, fun h => ?_⟩
  have hb := h.1
  rw [show b64UrlShapeOk "e30=====".data = false by decide] at hb
  exact Bool.false_ne_true hb

/-- C7 (amended): `_decode` fails whenever the dot-split does not give
exactly three segments, and succeeds on every token whose first two
segments are valid (possibly unpadded) base64url-encoded JSON, returning
their decoded values; the signature segment is never decoded (any
dot-free signature gives the identical result).  However, failure is
*not* exactly characterised by base64url validity: the lenient
`binascii.a2b_base64` machine also accepts some invalid segments (see
the counterexample), so some spec-invalid tokens decode successfully. -/
theorem C7_decode_behavior :
    (∀ s : List Char, (splitOnDot s).length ≠ 3 → decodeToken s = none) ∧
    (∀ hseg pseg sig hv pv, SpecValidSegment hseg → SpecValidSegment pseg → '.' ∉ sig →
      jsonLoadsBytes (sextetsToBytes ((hseg.takeWhile (fun c => c ≠ '=')).map urlCharVal))
        = some hv →
      jsonLoadsBytes (sextetsToBytes ((pseg.takeWhile (fun c => c ≠ '=')).map urlCharVal))
        = some pv →
      decodeToken (hseg ++ '.' :: pseg ++ '.' :: sig) = some (hv, pv)) ∧
    (∀ a b s1 s2, '.' ∉ a → '.' ∉ b → '.' ∉ s1 → '.' ∉ s2 →
      decodeToken (a ++ '.' :: b ++ '.' :: s1) = decodeToken (a ++ '.' :: b ++ '.' :: s2)) := by
  refine ⟨?_, ?_, ?_⟩
  · intro s hlen
    rcases hsp : splitOnDot s with _ | ⟨x, _ | ⟨y, _ | ⟨z, _ | ⟨w, tl⟩⟩⟩⟩
    · simp [decodeToken, hsp]
    · simp [decodeToken, hsp]
    · simp [decodeToken, hsp]
    · exact absurd (by rw [hsp]; rfl) hlen
    · simp [decodeToken, hsp]
  · intro hseg pseg sig hv pv hvz pvz hsig hhv hpv
    have hnd1 := shape_no_dot hseg hvz.1
    have hnd2 := shape_no_dot pseg pvz.1
    unfold decodeToken
    rw [splitOnDot_three hseg pseg sig hnd1 hnd2 hsig]
    simp only [segmentToJson_of_shape hseg hvz.1, segmentToJson_of_shape pseg pvz.1, hhv, hpv]
  · intro a b s1 s2 ha hb h1 h2
    unfold decodeToken
    rw [splitOnDot_three a b s1 ha hb h1, splitOnDot_three a b s2 ha hb h2]

/-- C7 (witness): concrete instances — a dotless string fails; a token
with valid unpadded base64url JSON segments decodes to the encoded
header/claims; two different signatures give the same result. -/
theorem C7_decode_behavior_witness :
    decodeToken "nodots".data = none ∧
    decodeToken ("e30".data ++ '.' :: "eyJleHAiOiA5OX0".data ++ '.' :: "SIG".data) =
      some (.obj [], .obj [("exp".data, .int 99)]) ∧
    decodeToken ("e30".data ++ '.' :: "e30".data ++ '.' :: "s1".data) =
      decodeToken ("e30".data ++ '.' :: "e30".data ++ '.' :: "s2".data) := by
  refine ⟨?_, ?_, ?_⟩
  · exact C7_decode_behavior.1 "nodots".data (by decide)
  · exact C7_decode_behavior.2.1 "e30".data "eyJleHAiOiA5OX0".data "SIG".data
      (.obj []) (.obj [("exp".data, .int 99)])
      ⟨by decide, by decide⟩ ⟨by decide, by decide⟩ (by decide) rfl rfl
  · exact C7_decode_behavior.2.2 "e30".data "e30".data "s1".data "s2".data
      (by decide) (by decide) (by decide) (by decide)

/-! ### ASCII and UTF-8 lemmas -/

theorem hexDig_props : ∀ d : Fin 16,
    (hexDig d.val).toNat < 128 ∧ hexVal (hexDig d.val) = some d.val := by decide

theorem hex4_ascii (n : ℕ) : ∀ x ∈ hex4 n, x.toNat < 128 := by
  intro x hxm
  have p1 := (hexDig_props ⟨n / 4096 % 16, by omega⟩).1
  have p2 := (hexDig_props ⟨n / 256 % 16, by omega⟩).1
  have p3 := (hexDig_props ⟨n / 16 % 16, by omega⟩).1
  have p4 := (hexDig_props ⟨n % 16, by omega⟩).1
  simp only [hex4, List.mem_cons, List.not_mem_nil, or_false] at hxm
  rcases hxm with h | h | h | h <;> subst h <;> assumption

set_option maxHeartbeats 2000000 in
theorem escChar_ascii (c : Char) : ∀ b ∈ escChar c, b.toNat < 128 := by
  intro b hb
  unfold escChar at hb
  split_ifs at hb with h1 h2 h3 h4 h5 h6 h7 h8 h9 h10
  · rcases List.mem_cons.1 hb with h | h
    · subst h; decide
    · simp only [List.mem_singleton] at h; subst h; decide
  · rcases List.mem_cons.1 hb with h | h
    · subst h; decide
    · simp only [List.mem_singleton] at h; subst h; decide
  · rcases List.mem_cons.1 hb with h | h
    · subst h; decide
    · simp only [List.mem_singleton] at h; subst h; decide
  · rcases List.mem_cons.1 hb with h | h
    · subst h; decide
    · simp only [List.mem_singleton] at h; subst h; decide
  · rcases List.mem_cons.1 hb with h | h
    · subst h; decide
    · simp only [List.mem_singleton] at h; subst h; decide
  · rcases List.mem_cons.1 hb with h | h
    · subst h; decide
    · simp only [List.mem_singleton] at h; subst h; decide
  · rcases List.mem_cons.1 hb with h | h
    · subst h; decide
    · simp only [List.mem_singleton] at h; subst h; decide
  · rcases List.mem_cons.1 hb with h | h
    · subst h; decide
    · rcases List.mem_cons.1 h with h2 | h2
      · subst h2; decide
      · exact hex4_ascii _ b h2
  · simp only [List.mem_singleton] at hb
    subst hb
    omega
  · rcases List.mem_cons.1 hb with h | h
    · subst h; decide
    · rcases List.mem_cons.1 h with h2 | h2
      · subst h2; decide
      · exact hex4_ascii _ b h2
  · rcases List.mem_cons.1 hb with h | h
    · subst h; decide
    · rcases List.mem_cons.1 h with h2 | h2
      · subst h2; decide
      · rcases List.mem_append.1 h2 with h3 | h3
        · exact hex4_ascii _ b h3
        · rcases List.mem_cons.1 h3 with h4 | h4
          · subst h4; decide
          · rcases List.mem_cons.1 h4 with h5 | h5
            · subst h5; decide
            · exact hex4_ascii _ b h5

theorem natDigits_ascii : ∀ k : ℕ, ∀ x ∈ natDigits k, x.toNat < 128 := by
  intro k
  induction k using Nat.strong_induction_on with
  | _ k ihk =>
  intro x hx
  rw [natDigits_step] at hx
  split_ifs at hx with hk
  · simp only [List.mem_singleton] at hx
    subst hx
    exact (by decide : ∀ d : Fin 10, (digitChar d.val).toNat < 128) ⟨k, hk⟩
  · rcases List.mem_append.1 hx with h | h
    · exact ihk (k / 10) (Nat.div_lt_self (by omega) (by omega)) x h
    · simp only [List.mem_singleton] at h
      subst h
      exact (by decide : ∀ d : Fin 10, (digitChar d.val).toNat < 128) ⟨k % 10, by omega⟩

theorem intChars_ascii : ∀ m : ℤ, ∀ x ∈ intChars m, x.toNat < 128 := by
  intro m x hx
  unfold intChars at hx
  split_ifs at hx
  · rcases List.mem_cons.1 hx with h | h
    · subst h; decide
    · exact natDigits_ascii _ x h
  · exact natDigits_ascii _ x hx

theorem dumpStr_ascii (s : List Char) : ∀ c ∈ dumpStr s, c.toNat < 128 := by
  intro c hc
  unfold dumpStr at hc
  rcases List.mem_cons.1 hc with h | h
  · subst h; decide
  · rcases List.mem_append.1 h with h2 | h2
    · obtain ⟨x, -, hx⟩ := List.mem_flatMap.1 h2
      exact escChar_ascii x c hx
    · simp only [List.mem_singleton] at h2
      subst h2; decide

theorem mem_dumpsElems (c : Char) :
    ∀ xs, c ∈ dumpsElems xs → (∃ x ∈ xs, c ∈ dumpsVal x) ∨ c = ',' ∨ c = ' ' := by
  intro xs
  induction xs with
  | nil => intro h; simp [dumpsElems] at h
  | cons x tl ih =>
    intro h
    match tl with
    | [] =>
      simp only [dumpsElems] at h
      exact Or.inl ⟨x, by simp, h⟩
    | y :: tl2 =>
      simp only [dumpsElems, List.mem_append, List.mem_cons] at h
      rcases h with h | h | h
      · exact Or.inl ⟨x, by simp, h⟩
      · exact Or.inr (Or.inl h)
      · rcases h with h | h
        · exact Or.inr (Or.inr h)
        · rcases ih h with ⟨z, hz, hcz⟩ | h2
          · exact Or.inl ⟨z, by simp [hz], hcz⟩
          · exact Or.inr h2

theorem mem_dumpsMembers (c : Char) :
    ∀ kvs, c ∈ dumpsMembers kvs →
      (∃ p ∈ kvs, c ∈ dumpStr p.1 ∨ c ∈ dumpsVal p.2) ∨ c = ':' ∨ c = ' ' ∨ c = ',' := by
  intro kvs
  induction kvs with
  | nil => intro h; simp [dumpsMembers] at h
  | cons kv tl ih =>
    intro h
    match kv, tl with
    | (k, v), [] =>
      simp only [dumpsMembers, List.mem_append, List.mem_cons] at h
      rcases h with h | h | h
      · exact Or.inl ⟨(k, v), by simp, Or.inl h⟩
      · exact Or.inr (Or.inl h)
      · rcases h with h | h
        · exact Or.inr (Or.inr (Or.inl h))
        · exact Or.inl ⟨(k, v), by simp, Or.inr h⟩
    | (k, v), p :: tl2 =>
      simp only [dumpsMembers, List.mem_append, List.mem_cons] at h
      rcases h with h | h | h
      · rcases h with h | h | h | h
        · exact Or.inl ⟨(k, v), by simp, Or.inl h⟩
        · exact Or.inr (Or.inl h)
        · exact Or.inr (Or.inr (Or.inl h))
        · exact Or.inl ⟨(k, v), by simp, Or.inr h⟩
      · exact Or.inr (Or.inr (Or.inr h))
      · rcases h with h | h
        · exact Or.inr (Or.inr (Or.inl h))
        · rcases ih h with ⟨z, hz, hcz⟩ | h2
          · exact Or.inl ⟨z, by simp [hz], hcz⟩
          · exact Or.inr h2

theorem jsize_le_of_mem_esize (x : JVal) : ∀ xs, x ∈ xs → jsize x ≤ esize xs := by
  intro xs
  induction xs with
  | nil => intro h; simp at h
  | cons y tl ih =>
    intro h
    have hsz : esize (y :: tl) = 1 + jsize y + esize tl := rfl
    rcases List.mem_cons.1 h with h2 | h2
    · subst h2; omega
    · have := ih h2; omega

theorem jsize_le_of_mem_msize (p : List Char × JVal) :
    ∀ kvs, p ∈ kvs → jsize p.2 ≤ msize kvs := by
  intro kvs
  induction kvs with
  | nil => intro h; simp at h
  | cons q tl ih =>
    intro h
    have hsz : msize (q :: tl) = 1 + jsize q.2 + msize tl := rfl
    rcases List.mem_cons.1 h with h2 | h2
    · subst h2; omega
    · have := ih h2; omega

theorem dumps_ascii_aux : ∀ (n : ℕ) (v : JVal), jsize v ≤ n →
    ∀ c ∈ dumpsVal v, c.toNat < 128 := by
  have lit : ∀ (l : List Char), l.all (fun c => c.toNat < 128) = true →
      ∀ c ∈ l, c.toNat < 128 := by
    intro l hl c hc
    simpa using List.all_eq_true.1 hl c hc
  intro n
  induction n using Nat.strong_induction_on with
  | _ n ih =>
  intro v hv c hc
  match v with
  | .null => exact lit "null".data (by decide) c hc
  | .bool true => exact lit "true".data (by decide) c hc
  | .bool false => exact lit "false".data (by decide) c hc
  | .nan => exact lit "NaN".data (by decide) c hc
  | .inf true => exact lit "Infinity".data (by decide) c hc
  | .inf false => exact lit "-Infinity".data (by decide) c hc
  | .int m => exact intChars_ascii m c hc
  | .fnum m e =>
    simp only [dumpsVal, List.mem_append, List.mem_cons] at hc
    rcases hc with h | h | h
    · exact intChars_ascii m c h
    · subst h; decide
    · exact intChars_ascii e c h
  | .str s => exact dumpStr_ascii s c hc
  | .arr xs =>
    have hsz : jsize (JVal.arr xs) = 1 + esize xs := rfl
    rw [hsz] at hv
    simp only [dumpsVal, List.mem_cons, List.mem_append, List.mem_singleton] at hc
    rcases hc with (h | h) | h
    · subst h; decide
    · rcases mem_dumpsElems c xs h with ⟨x, hx, hcx⟩ | h2
      · have hxs := jsize_le_of_mem_esize x xs hx
        exact ih (n - 1) (by omega) x (by omega) c hcx
      · rcases h2 with h2 | h2 <;> (subst h2; decide)
    · rcases h with h | h
      · subst h; decide
      · simp at h
  | .obj kvs =>
    have hsz : jsize (JVal.obj kvs) = 1 + msize kvs := rfl
    rw [hsz] at hv
    simp only [dumpsVal, List.mem_cons, List.mem_append, List.mem_singleton] at hc
    rcases hc with (h | h) | h
    · subst h; decide
    · rcases mem_dumpsMembers c kvs h with ⟨p, hp, hcp⟩ | h2
      · rcases hcp with hcp | hcp
        · exact dumpStr_ascii p.1 c hcp
        · have hps := jsize_le_of_mem_msize p kvs hp
          exact ih (n - 1) (by omega) p.2 (by omega) c hcp
      · rcases h2 with h2 | h2 | h2 <;> (subst h2; decide)
    · rcases h with h | h
      · subst h; decide
      · simp at h

/-- Every character of a `json.dumps` rendering is ASCII
(`ensure_ascii=True`). -/
theorem dumps_ascii (v : JVal) : ∀ c ∈ dumpsVal v, c.toNat < 128 :=
  dumps_ascii_aux (jsize v) v le_rfl

/-- UTF-8 encoding of an ASCII string is the bytewise code points. -/
theorem strBytes_ascii (s : List Char) (h : ∀ c ∈ s, c.toNat < 128) :
    strBytes s = s.map Char.toNat := by
  induction s with
  | nil => rfl
  | cons c cs ih =>
    have hc : c.toNat < 128 := h c (by simp)
    have hcs := ih (fun x hx => h x (by simp [hx]))
    unfold strBytes at hcs ⊢
    simp only [List.map_cons, List.flatten_cons, hcs]
    unfold utf8EncodeChar
    rw [if_pos (by omega : c.toNat < 0x80)]
    rfl

theorem utf8DecodeGo_ascii : ∀ (fuel : ℕ) (s : List Char), s.length ≤ fuel →
    (∀ c ∈ s, c.toNat < 128) → utf8DecodeGo fuel (s.map Char.toNat) = some s := by
  intro fuel
  induction fuel with
  | zero =>
    intro s hlen _
    have : s = [] := List.length_eq_zero.1 (by omega)
    subst this
    rfl
  | succ fuel ih =>
    intro s hlen h
    match s with
    | [] => rfl
    | c :: cs =>
      have hc : c.toNat < 128 := h c (by simp)
      have hcs := ih cs (by simp at hlen; omega) (fun x hx => h x (by simp [hx]))
      have hhead : utf8Head c.toNat (List.map Char.toNat cs) =
          some (Char.ofNat c.toNat, List.map Char.toNat cs) := by
        unfold utf8Head
        rw [if_pos (show c.toNat < 0x80 by omega)]
      show (match utf8Head c.toNat (List.map Char.toNat cs) with
        | none => none
        | some (ch, rest) => (utf8DecodeGo fuel rest).map (ch :: ·)) = some (c :: cs)
      rw [hhead]
      show (utf8DecodeGo fuel (List.map Char.toNat cs)).map
        (fun x => Char.ofNat c.toNat :: x) = some (c :: cs)
      rw [hcs]
      simp only [Option.map_some', Char.ofNat_toNat]

/-- Strict UTF-8 decoding inverts code points on ASCII strings. -/
theorem utf8Decode_ascii (s : List Char) (h : ∀ c ∈ s, c.toNat < 128) :
    utf8Decode (s.map Char.toNat) = some s :=
  utf8DecodeGo_ascii (s.map Char.toNat).length s (by simp) h

/-! ### Base64url encoding round-trip -/

theorem sextets_bytes_round : ∀ (n : ℕ) (bs : List ℕ), bs.length ≤ n →
    (∀ b ∈ bs, b < 256) → sextetsToBytes (bytesToSextets bs) = bs := by
  intro n
  induction n with
  | zero =>
    intro bs hlen _
    have : bs = [] := List.length_eq_zero.1 (by omega)
    subst this
    rfl
  | succ n ih =>
    intro bs hlen hb
    match bs with
    | [] => rfl
    | [x] =>
      have hx : x < 256 := hb x (by simp)
      show sextetsToBytes [x / 4, x % 4 * 16] = [x]
      show [x / 4 * 4 + x % 4 * 16 / 16] = [x]
      congr 1
      omega
    | [x, y] =>
      have hx : x < 256 := hb x (by simp)
      have hy : y < 256 := hb y (by simp)
      show sextetsToBytes [x / 4, x % 4 * 16 + y / 16, y % 16 * 4] = [x, y]
      show [x / 4 * 4 + (x % 4 * 16 + y / 16) / 16,
            (x % 4 * 16 + y / 16) % 16 * 16 + y % 16 * 4 / 4] = [x, y]
      congr 1
      · omega
      · congr 1
        omega
    | x :: y :: z :: tl =>
      have hx : x < 256 := hb x (by simp)
      have hy : y < 256 := hb y (by simp)
      have hz : z < 256 := hb z (by simp)
      have htl := ih tl (by simp at hlen; omega) (fun b hbm => hb b (by simp [hbm]))
      show sextetsToBytes (x / 4 :: (x % 4 * 16 + y / 16) :: (y % 16 * 4 + z / 64) :: z % 64 ::
        bytesToSextets tl) = x :: y :: z :: tl
      show (x / 4 * 4 + (x % 4 * 16 + y / 16) / 16) ::
        ((x % 4 * 16 + y / 16) % 16 * 16 + (y % 16 * 4 + z / 64) / 4) ::
        ((y % 16 * 4 + z / 64) % 4 * 64 + z % 64) :: sextetsToBytes (bytesToSextets tl) =
        x :: y :: z :: tl
      rw [htl]
      congr 1
      · omega
      congr 1
      · omega
      congr 1
      omega

theorem bytesToSextets_mod : ∀ (n : ℕ) (bs : List ℕ), bs.length ≤ n →
    (bytesToSextets bs).length % 4 ≠ 1 := by
  intro n
  induction n with
  | zero =>
    intro bs hlen
    have : bs = [] := List.length_eq_zero.1 (by omega)
    subst this
    decide
  | succ n ih =>
    intro bs hlen
    match bs with
    | [] => decide
    | [x] => simp [bytesToSextets]
    | [x, y] => simp [bytesToSextets]
    | x :: y :: z :: tl =>
      have htl := ih tl (by simp at hlen; omega)
      show ((x / 4) :: _ :: _ :: _ :: bytesToSextets tl).length % 4 ≠ 1
      simp only [List.length_cons]
      omega

theorem bytesToSextets_lt : ∀ (n : ℕ) (bs : List ℕ), bs.length ≤ n →
    (∀ b ∈ bs, b < 256) → ∀ v ∈ bytesToSextets bs, v < 64 := by
  intro n
  induction n with
  | zero =>
    intro bs hlen _
    have : bs = [] := List.length_eq_zero.1 (by omega)
    subst this
    intro v hv
    simp [bytesToSextets] at hv
  | succ n ih =>
    intro bs hlen hb v hv
    match bs with
    | [] => simp [bytesToSextets] at hv
    | [x] =>
      have hx : x < 256 := hb x (by simp)
      show v < 64
      have : v ∈ [x / 4, x % 4 * 16] := hv
      rcases List.mem_cons.1 this with h | h
      · subst h; omega
      · simp only [List.mem_singleton] at h; subst h; omega
    | [x, y] =>
      have hx : x < 256 := hb x (by simp)
      have hy : y < 256 := hb y (by simp)
      have : v ∈ [x / 4, x % 4 * 16 + y / 16, y % 16 * 4] := hv
      rcases List.mem_cons.1 this with h | h
      · subst h; omega
      rcases List.mem_cons.1 h with h2 | h2
      · subst h2; omega
      · simp only [List.mem_singleton] at h2; subst h2; omega
    | x :: y :: z :: tl =>
      have hx : x < 256 := hb x (by simp)
      have hy : y < 256 := hb y (by simp)
      have hz : z < 256 := hb z (by simp)
      have :
          v ∈ (x / 4) :: (x % 4 * 16 + y / 16) :: (y % 16 * 4 + z / 64) :: (z % 64) ::
            bytesToSextets tl := hv
      rcases List.mem_cons.1 this with h | h
      · subst h; omega
      rcases List.mem_cons.1 h with h2 | h2
      · subst h2; omega
      rcases List.mem_cons.1 h2 with h3 | h3
      · subst h3; omega
      rcases List.mem_cons.1 h3 with h4 | h4
      · subst h4; omega
      · exact ih tl (by simp at hlen; omega) (fun b hbm => hb b (by simp [hbm])) v h4

theorem valToChar_class : ∀ v : Fin 64,
    b64Class (urlsafeTranslateChar (valToChar v.val)) = .val v.val ∧
    urlCharVal (valToChar v.val) = v.val ∧
    isB64UrlChar (valToChar v.val) = true ∧
    valToChar v.val ≠ '.' ∧ valToChar v.val ≠ '=' := by decide

/-- `_decode`'s segment pipeline inverts the spec-side base64url encoding
of any byte string, padded or unpadded. -/
theorem segmentBytes_encode (bs : List ℕ) (hb : ∀ b ∈ bs, b < 256) (padded : Bool) :
    segmentBytes (b64urlEncodeBytes bs padded) = some bs := by
  have hlt : ∀ v ∈ bytesToSextets bs, v < 64 := bytesToSextets_lt bs.length bs le_rfl hb
  have hmod : (bytesToSextets bs).length % 4 ≠ 1 := bytesToSextets_mod bs.length bs le_rfl
  have hdlen : ((bytesToSextets bs).map valToChar).length = (bytesToSextets bs).length := by
    simp
  have hmap : (((bytesToSextets bs).map valToChar).map urlsafeTranslateChar).map b64Class =
      (bytesToSextets bs).map B64C.val := by
    simp only [List.map_map]
    apply List.map_congr_left
    intro v hv
    simp only [Function.comp_apply]
    exact (valToChar_class ⟨v, hlt v hv⟩).1
  have hmach := machineGo_data (((bytesToSextets bs).map valToChar).map urlsafeTranslateChar).length
      (((bytesToSextets bs).map valToChar).map urlsafeTranslateChar) (bytesToSextets bs) []
      le_rfl hmap hmod
  rw [sextets_bytes_round bs.length bs le_rfl hb] at hmach
  simp only [List.nil_append] at hmach
  unfold segmentBytes b64decodePy b64urlEncodeBytes
  cases padded
  · simp only [Bool.false_eq_true, if_false]
    rw [List.map_append, List.map_replicate,
      show urlsafeTranslateChar '=' = '=' from rfl, hdlen]
    exact hmach
  · simp only [if_true]
    have hzero : padFor (((bytesToSextets bs).map valToChar) ++
        List.replicate (padFor ((bytesToSextets bs).map valToChar).length) '=').length = 0 := by
      simp only [List.length_append, List.length_replicate]
      unfold padFor
      omega
    rw [hzero]
    simp only [List.replicate_zero, List.append_nil]
    rw [List.map_append, List.map_replicate,
      show urlsafeTranslateChar '=' = '=' from rfl, hdlen]
    exact hmach

/-! ### Character and digit helper lemmas -/

theorem char_eq_iff (c d : Char) : c = d ↔ c.toNat = d.toNat := by
  rw [Char.ext_iff, UInt32.ext_iff]
  rfl

theorem char_valid_range (c : Char) :
    c.toNat < 0xD800 ∨ (0xDFFF < c.toNat ∧ c.toNat < 0x110000) := by
  have h := c.valid
  unfold UInt32.isValidChar Nat.isValidChar at h
  exact h

theorem digitChar_toNat : ∀ d : Fin 10, (digitChar d.val).toNat = 48 + d.val := by decide

theorem digitChar_toNat2 (d : ℕ) (h : d < 10) : (digitChar d).toNat = 48 + d :=
  digitChar_toNat ⟨d, h⟩

theorem isDigitChar_toNat (c : Char) (h : isDigitChar c = true) :
    48 ≤ c.toNat ∧ c.toNat ≤ 57 := by
  unfold isDigitChar at h
  simpa using h

theorem isDigitChar_of_range (c : Char) (h : 48 ≤ c.toNat ∧ c.toNat ≤ 57) :
    isDigitChar c = true := by
  unfold isDigitChar
  simpa using h

theorem char_ne_of_toNat_ne (c d : Char) (h : c.toNat ≠ d.toNat) : c ≠ d :=
  fun he => h (by rw [he])

/-- A decimal digit character is none of the scanner's special characters. -/
theorem digit_not_special (c : Char) (h : isDigitChar c = true) :
    isWsChar c = false ∧ c ≠ dquote ∧ c ≠ lbrace ∧ c ≠ '[' ∧ c ≠ '-' ∧ c ≠ '.' ∧
      c ≠ 'e' ∧ c ≠ 'E' ∧ c ≠ 'n' ∧ c ≠ 't' ∧ c ≠ 'f' ∧ c ≠ 'N' ∧ c ≠ 'I' ∧
      c ≠ ']' ∧ c ≠ rbrace ∧ c ≠ ',' ∧ c ≠ ':' ∧ c ≠ '=' := by
  have hr := isDigitChar_toNat c h
  refine ⟨?_, ?_, ?_, ?_, ?_, ?_, ?_, ?_, ?_, ?_, ?_, ?_, ?_, ?_, ?_, ?_, ?_, ?_⟩
  · unfold isWsChar
    rw [decide_eq_false_iff_not, char_eq_iff]
    rw [show (' ' : Char).toNat = 32 from rfl]
    omega
  · exact char_ne_of_toNat_ne c dquote (by rw [show dquote.toNat = 34 from rfl]; omega)
  · exact char_ne_of_toNat_ne c lbrace (by rw [show lbrace.toNat = 123 from rfl]; omega)
  · exact char_ne_of_toNat_ne c '[' (by rw [show ('[' : Char).toNat = 91 from rfl]; omega)
  · exact char_ne_of_toNat_ne c '-' (by rw [show ('-' : Char).toNat = 45 from rfl]; omega)
  · exact char_ne_of_toNat_ne c '.' (by rw [show ('.' : Char).toNat = 46 from rfl]; omega)
  · exact char_ne_of_toNat_ne c 'e' (by rw [show ('e' : Char).toNat = 101 from rfl]; omega)
  · exact char_ne_of_toNat_ne c 'E' (by rw [show ('E' : Char).toNat = 69 from rfl]; omega)
  · exact char_ne_of_toNat_ne c 'n' (by rw [show ('n' : Char).toNat = 110 from rfl]; omega)
  · exact char_ne_of_toNat_ne c 't' (by rw [show ('t' : Char).toNat = 116 from rfl]; omega)
  · exact char_ne_of_toNat_ne c 'f' (by rw [show ('f' : Char).toNat = 102 from rfl]; omega)
  · exact char_ne_of_toNat_ne c 'N' (by rw [show ('N' : Char).toNat = 78 from rfl]; omega)
  · exact char_ne_of_toNat_ne c 'I' (by rw [show ('I' : Char).toNat = 73 from rfl]; omega)
  · exact char_ne_of_toNat_ne c ']' (by rw [show (']' : Char).toNat = 93 from rfl]; omega)
  · exact char_ne_of_toNat_ne c rbrace (by rw [show rbrace.toNat = 125 from rfl]; omega)
  · exact char_ne_of_toNat_ne c ',' (by rw [show (',' : Char).toNat = 44 from rfl]; omega)
  · exact char_ne_of_toNat_ne c ':' (by rw [show (':' : Char).toNat = 58 from rfl]; omega)
  · exact char_ne_of_toNat_ne c '=' (by rw [show ('=' : Char).toNat = 61 from rfl]; omega)

/-! ### `str(int)` and number-scanning lemmas -/

theorem natDigits_ne_nil (m : ℕ) : natDigits m ≠ [] := by
  rw [natDigits_step]
  split_ifs <;> simp

theorem natDigits_all_digits : ∀ m : ℕ, ∀ c ∈ natDigits m, isDigitChar c = true := by
  intro m
  induction m using Nat.strong_induction_on with
  | _ m ih =>
  intro c hc
  rw [natDigits_step] at hc
  split_ifs at hc with hm
  · simp only [List.mem_singleton] at hc
    subst hc
    exact isDigitChar_of_range _ (by rw [digitChar_toNat2 m hm]; omega)
  · rcases List.mem_append.1 hc with h | h
    · exact ih (m / 10) (Nat.div_lt_self (by omega) (by omega)) c h
    · simp only [List.mem_singleton] at h
      subst h
      exact isDigitChar_of_range _ (by rw [digitChar_toNat2 (m % 10) (by omega)]; omega)

theorem digitsVal_append_one (ds : List Char) (d : Char) :
    digitsVal (ds ++ [d]) = digitsVal ds * 10 + (d.toNat - 48) := by
  unfold digitsVal
  rw [List.foldl_append]
  rfl

theorem digitsVal_natDigits : ∀ m : ℕ, digitsVal (natDigits m) = m := by
  intro m
  induction m using Nat.strong_induction_on with
  | _ m ih =>
  rw [natDigits_step]
  split_ifs with hm
  · show digitsVal [digitChar m] = m
    unfold digitsVal
    simp only [List.foldl_cons, List.foldl_nil]
    rw [digitChar_toNat2 m hm]
    omega
  · rw [digitsVal_append_one, ih (m / 10) (Nat.div_lt_self (by omega) (by omega))]
    rw [digitChar_toNat2 (m % 10) (by omega)]
    omega

/-- The leading digit of `str(m)` is `0` only for `m = 0`. -/
theorem natDigits_head : ∀ m : ℕ, ∃ d tl, natDigits m = d :: tl ∧ isDigitChar d = true ∧
    (1 ≤ m → d ≠ '0') := by
  intro m
  induction m using Nat.strong_induction_on with
  | _ m ih =>
  rw [natDigits_step]
  split_ifs with hm
  · refine ⟨digitChar m, [], rfl, isDigitChar_of_range _ (by rw [digitChar_toNat2 m hm]; omega), ?_⟩
    intro h1
    apply char_ne_of_toNat_ne
    rw [digitChar_toNat2 m hm, show ('0' : Char).toNat = 48 from rfl]
    omega
  · obtain ⟨d, tl, heq, hdig, hz⟩ := ih (m / 10) (Nat.div_lt_self (by omega) (by omega))
    refine ⟨d, tl ++ [digitChar (m % 10)], by rw [heq]; rfl, hdig, ?_⟩
    intro _
    exact hz (by omega)

theorem takeWhile_append_all (p : Char → Bool) (l1 l2 : List Char)
    (h : ∀ a ∈ l1, p a = true) :
    (l1 ++ l2).takeWhile p = l1 ++ l2.takeWhile p ∧
    (l1 ++ l2).dropWhile p = l2.dropWhile p := by
  induction l1 with
  | nil => exact ⟨rfl, rfl⟩
  | cons a tl ih =>
    have ha : p a = true := h a (by simp)
    have iht := ih (fun x hx => h x (by simp [hx]))
    simp [List.takeWhile_cons, List.dropWhile_cons, ha, iht.1, iht.2]

theorem boundary_digits (rest : List Char) (hb : numBoundary rest) :
    rest.takeWhile isDigitChar = [] ∧ rest.dropWhile isDigitChar = rest := by
  match rest, hb with
  | [], _ => exact ⟨rfl, rfl⟩
  | c :: tl, hb =>
    have hc : isDigitChar c = false := hb.1
    simp [List.takeWhile_cons, List.dropWhile_cons, hc]


theorem natDigits_zero : natDigits 0 = ['0'] := by decide

theorem pnFrac_boundary (rest : List Char) (hb : numBoundary rest) :
    pnFrac rest = ([], rest) := by
  match rest, hb with
  | [], _ => rfl
  | [c], _ => rfl
  | c :: c2 :: tl2, hb =>
    have h : ¬ (c = '.' ∧ isDigitChar c2 = true) := fun hcc => hb.2.1 hcc.1
    simp only [pnFrac, h, if_false]

theorem pnExp_boundary (rest : List Char) (hb : numBoundary rest) :
    pnExp rest = (none, rest) := by
  match rest, hb with
  | [], _ => rfl
  | c :: tl2, hb =>
    have h : ¬ (c = 'e' ∨ c = 'E') := by
      intro hor
      rcases hor with h | h
      · exact hb.2.2.1 h
      · exact hb.2.2.2 h
    simp only [pnExp, h, if_false]

theorem parseNumber_core (d : Char) (tl rest : List Char) (neg : Bool)
    (hdig : isDigitChar d = true) (hall : ∀ c ∈ tl, isDigitChar c = true)
    (hzero : d = '0' → tl = [])
    (hdm : d ≠ '-')
    (hb : numBoundary rest) :
    parseNumber ((if neg then ['-'] else []) ++ d :: tl ++ rest) =
      some (.int ((if neg then -1 else 1) * (digitsVal (d :: tl) : ℤ)), rest) := by
  have hbrest := boundary_digits rest hb
  have hdall : ∀ a ∈ d :: tl, isDigitChar a = true := by
    intro a ha
    rcases List.mem_cons.1 ha with h | h
    · subst h; exact hdig
    · exact hall a h
  have htake := takeWhile_append_all isDigitChar (d :: tl) rest hdall
  have hint : pnInt d (tl ++ rest) = (d :: tl, rest) := by
    unfold pnInt
    by_cases hd0 : d = '0'
    · rw [if_pos hd0, hzero hd0]
      exact congrArg _ rfl
    · rw [if_neg hd0]
      rw [show (d :: (tl ++ rest)) = (d :: tl) ++ rest from rfl, htake.1, htake.2,
        hbrest.1, hbrest.2, List.append_nil]
  have hfrac := pnFrac_boundary rest hb
  have hexp := pnExp_boundary rest hb
  cases neg
  case false =>
    show parseNumber (d :: tl ++ rest) = some (.int (1 * (digitsVal (d :: tl) : ℤ)), rest)
    rw [show d :: tl ++ rest = d :: (tl ++ rest) from rfl]
    generalize hl : tl ++ rest = l at hint ⊢
    have hsign : pnSign (d :: l) = (false, d :: l) := by
      simp only [pnSign, if_neg hdm]
    rw [parseNumber.eq_def]
    simp only [hsign, hint, hfrac, hexp, hdig, Bool.not_true, if_false]
    simp
  case true =>
    show parseNumber ('-' :: d :: tl ++ rest) =
      some (.int (-1 * (digitsVal (d :: tl) : ℤ)), rest)
    rw [show ('-' :: d :: tl ++ rest) = '-' :: d :: (tl ++ rest) from rfl]
    generalize hl : tl ++ rest = l at hint ⊢
    have hsign : pnSign ('-' :: d :: l) = (true, d :: l) := by
      simp [pnSign]
    rw [parseNumber.eq_def]
    simp only [hsign, hint, hfrac, hexp, hdig, Bool.not_true, if_false]
    simp

/-- Parsing `str(n) ++ rest` at a number boundary yields exactly `.int n`. -/
theorem parseNumber_int (n : ℤ) (rest : List Char) (hb : numBoundary rest) :
    parseNumber (intChars n ++ rest) = some (.int n, rest) := by
  unfold intChars
  by_cases hneg : n < 0
  · rw [if_pos hneg]
    obtain ⟨d, tl, heq, hdig, hz⟩ := natDigits_head n.natAbs
    have hall : ∀ c ∈ tl, isDigitChar c = true := by
      intro c hc
      exact natDigits_all_digits n.natAbs c (by rw [heq]; simp [hc])
    have hzero : d = '0' → tl = [] := by
      intro h0
      exfalso
      exact hz (by omega) h0
    have hv : digitsVal (d :: tl) = n.natAbs := by
      rw [← heq, digitsVal_natDigits]
    have hc := parseNumber_core d tl rest true hdig hall hzero
      (digit_not_special d hdig).2.2.2.2.1 hb
    simp only [if_true, ite_true, List.singleton_append] at hc
    have hn : (-1 : ℤ) * ((digitsVal (d :: tl) : ℤ)) = n := by rw [hv]; omega
    rw [heq]
    exact hc.trans (by rw [hn])
  · rw [if_neg hneg]
    obtain ⟨d, tl, heq, hdig, hz⟩ := natDigits_head n.toNat
    have hall : ∀ c ∈ tl, isDigitChar c = true := by
      intro c hc
      exact natDigits_all_digits n.toNat c (by rw [heq]; simp [hc])
    have hzero : d = '0' → tl = [] := by
      by_cases hn0 : n.toNat = 0
      · intro _
        have h00 : natDigits 0 = d :: tl := by rw [← hn0]; exact heq
        rw [natDigits_zero] at h00
        exact (List.cons.injEq _ _ _ _ ▸ h00).2.symm ▸ rfl
      · intro h0
        exfalso
        exact hz (by omega) h0
    have hv : digitsVal (d :: tl) = n.toNat := by
      rw [← heq, digitsVal_natDigits]
    have hc := parseNumber_core d tl rest false hdig hall hzero
      (digit_not_special d hdig).2.2.2.2.1 hb
    simp only [Bool.false_eq_true, if_false, ite_false, List.nil_append, one_mul] at hc
    have hn : ((digitsVal (d :: tl) : ℤ)) = n := by rw [hv]; omega
    rw [heq]
    exact hc.trans (by rw [hn])

/-! ### String literal round-trip -/

theorem hexVal_hexDig (d : ℕ) (h : d < 16) : hexVal (hexDig d) = some d := by
  interval_cases d <;> decide

theorem psb_u (n : ℕ) (hn : n < 0x10000) (hs : ¬ (0xD800 ≤ n ∧ n ≤ 0xDBFF))
    (f : ℕ) (tail : List Char) :
    parseStringBody (f + 1) (bslash :: 'u' :: hex4 n ++ tail) =
      (parseStringBody f tail).map (fun r => (Char.ofNat n :: r.1, r.2)) := by
  have h1 := hexVal_hexDig (n / 4096 % 16) (by omega)
  have h2 := hexVal_hexDig (n / 256 % 16) (by omega)
  have h3 := hexVal_hexDig (n / 16 % 16) (by omega)
  have h4 := hexVal_hexDig (n % 16) (by omega)
  have hrec : ((n / 4096 % 16 * 16 + n / 256 % 16) * 16 + n / 16 % 16) * 16 + n % 16 = n := by
    omega
  rw [parseStringBody.eq_def]
  simp only [hex4, List.cons_append, List.nil_append, h1, h2, h3, h4, hrec,
    show (bslash = dquote) = False from eq_false (by decide),
    show (bslash = bslash) = True from eq_true rfl,
    show (('u' : Char) = dquote) = False from eq_false (by decide),
    show (('u' : Char) = bslash) = False from eq_false (by decide),
    show (('u' : Char) = '/') = False from eq_false (by decide),
    show (('u' : Char) = 'b') = False from eq_false (by decide),
    show (('u' : Char) = 'f') = False from eq_false (by decide),
    show (('u' : Char) = 'n') = False from eq_false (by decide),
    show (('u' : Char) = 'r') = False from eq_false (by decide),
    show (('u' : Char) = 't') = False from eq_false (by decide),
    show (('u' : Char) = 'u') = True from eq_true rfl,
    show (0xD800 ≤ n ∧ n ≤ 0xDBFF) = False from eq_false hs,
    if_true, if_false]

theorem psb_u2 (n m : ℕ) (hn : 0xD800 ≤ n ∧ n ≤ 0xDBFF) (hm : 0xDC00 ≤ m ∧ m ≤ 0xDFFF)
    (f : ℕ) (tail : List Char) :
    parseStringBody (f + 1) (bslash :: 'u' :: hex4 n ++ (bslash :: 'u' :: hex4 m ++ tail)) =
      (parseStringBody f tail).map
        (fun r => (Char.ofNat (0x10000 + (n - 0xD800) * 0x400 + (m - 0xDC00)) :: r.1, r.2)) := by
  have h1 := hexVal_hexDig (n / 4096 % 16) (by omega)
  have h2 := hexVal_hexDig (n / 256 % 16) (by omega)
  have h3 := hexVal_hexDig (n / 16 % 16) (by omega)
  have h4 := hexVal_hexDig (n % 16) (by omega)
  have hrec : ((n / 4096 % 16 * 16 + n / 256 % 16) * 16 + n / 16 % 16) * 16 + n % 16 = n := by
    omega
  have k1 := hexVal_hexDig (m / 4096 % 16) (by omega)
  have k2 := hexVal_hexDig (m / 256 % 16) (by omega)
  have k3 := hexVal_hexDig (m / 16 % 16) (by omega)
  have k4 := hexVal_hexDig (m % 16) (by omega)
  have krec : ((m / 4096 % 16 * 16 + m / 256 % 16) * 16 + m / 16 % 16) * 16 + m % 16 = m := by
    omega
  rw [parseStringBody.eq_def]
  simp only [hex4, List.cons_append, List.nil_append, h1, h2, h3, h4, hrec, k1, k2, k3, k4, krec,
    show (bslash = dquote) = False from eq_false (by decide),
    show (bslash = bslash) = True from eq_true rfl,
    show (('u' : Char) = dquote) = False from eq_false (by decide),
    show (('u' : Char) = bslash) = False from eq_false (by decide),
    show (('u' : Char) = '/') = False from eq_false (by decide),
    show (('u' : Char) = 'b') = False from eq_false (by decide),
    show (('u' : Char) = 'f') = False from eq_false (by decide),
    show (('u' : Char) = 'n') = False from eq_false (by decide),
    show (('u' : Char) = 'r') = False from eq_false (by decide),
    show (('u' : Char) = 't') = False from eq_false (by decide),
    show (('u' : Char) = 'u') = True from eq_true rfl,
    show (0xD800 ≤ n ∧ n ≤ 0xDBFF) = True from eq_true hn,
    show (bslash = bslash ∧ ('u' : Char) = 'u') = True from eq_true ⟨rfl, rfl⟩,
    show (0xDC00 ≤ m ∧ m ≤ 0xDFFF) = True from eq_true hm,
    if_true, if_false, and_self]

set_option maxHeartbeats 2000000 in
theorem psb_step (c : Char) (f : ℕ) (tail : List Char) :
    parseStringBody (f + 1) (escChar c ++ tail) =
      (parseStringBody f tail).map (fun r => (c :: r.1, r.2)) := by
  unfold escChar
  split_ifs with g1 g2 g3 g4 g5 g6 g7 g8 g9 g10
  · subst g1
    rw [parseStringBody.eq_def]
    simp only [List.cons_append, List.nil_append,
      show (bslash = dquote) = False from eq_false (by decide),
      show (bslash = bslash) = True from eq_true rfl,
      show (dquote = dquote) = True from eq_true rfl,
      if_true, if_false]
  · subst g2
    rw [parseStringBody.eq_def]
    simp only [List.cons_append, List.nil_append,
      show (bslash = dquote) = False from eq_false (by decide),
      show (bslash = bslash) = True from eq_true rfl,
      if_true, if_false]
  · rw [parseStringBody.eq_def]
    simp only [List.cons_append, List.nil_append,
      show (bslash = dquote) = False from eq_false (by decide),
      show (bslash = bslash) = True from eq_true rfl,
      show (('n' : Char) = dquote) = False from eq_false (by decide),
      show (('n' : Char) = bslash) = False from eq_false (by decide),
      show (('n' : Char) = '/') = False from eq_false (by decide),
      show (('n' : Char) = 'b') = False from eq_false (by decide),
      show (('n' : Char) = 'f') = False from eq_false (by decide),
      show (('n' : Char) = 'n') = True from eq_true rfl,
      if_true, if_false]
    rw [show Char.ofNat 10 = c from by rw [← g3, Char.ofNat_toNat]]
  · rw [parseStringBody.eq_def]
    simp only [List.cons_append, List.nil_append,
      show (bslash = dquote) = False from eq_false (by decide),
      show (bslash = bslash) = True from eq_true rfl,
      show (('r' : Char) = dquote) = False from eq_false (by decide),
      show (('r' : Char) = bslash) = False from eq_false (by decide),
      show (('r' : Char) = '/') = False from eq_false (by decide),
      show (('r' : Char) = 'b') = False from eq_false (by decide),
      show (('r' : Char) = 'f') = False from eq_false (by decide),
      show (('r' : Char) = 'n') = False from eq_false (by decide),
      show (('r' : Char) = 'r') = True from eq_true rfl,
      if_true, if_false]
    rw [show Char.ofNat 13 = c from by rw [← g4, Char.ofNat_toNat]]
  · rw [parseStringBody.eq_def]
    simp only [List.cons_append, List.nil_append,
      show (bslash = dquote) = False from eq_false (by decide),
      show (bslash = bslash) = True from eq_true rfl,
      show (('t' : Char) = dquote) = False from eq_false (by decide),
      show (('t' : Char) = bslash) = False from eq_false (by decide),
      show (('t' : Char) = '/') = False from eq_false (by decide),
      show (('t' : Char) = 'b') = False from eq_false (by decide),
      show (('t' : Char) = 'f') = False from eq_false (by decide),
      show (('t' : Char) = 'n') = False from eq_false (by decide),
      show (('t' : Char) = 'r') = False from eq_false (by decide),
      show (('t' : Char) = 't') = True from eq_true rfl,
      if_true, if_false]
    rw [show Char.ofNat 9 = c from by rw [← g5, Char.ofNat_toNat]]
  · rw [parseStringBody.eq_def]
    simp only [List.cons_append, List.nil_append,
      show (bslash = dquote) = False from eq_false (by decide),
      show (bslash = bslash) = True from eq_true rfl,
      show (('b' : Char) = dquote) = False from eq_false (by decide),
      show (('b' : Char) = bslash) = False from eq_false (by decide),
      show (('b' : Char) = '/') = False from eq_false (by decide),
      show (('b' : Char) = 'b') = True from eq_true rfl,
      if_true, if_false]
    rw [show Char.ofNat 8 = c from by rw [← g6, Char.ofNat_toNat]]
  · rw [parseStringBody.eq_def]
    simp only [List.cons_append, List.nil_append,
      show (bslash = dquote) = False from eq_false (by decide),
      show (bslash = bslash) = True from eq_true rfl,
      show (('f' : Char) = dquote) = False from eq_false (by decide),
      show (('f' : Char) = bslash) = False from eq_false (by decide),
      show (('f' : Char) = '/') = False from eq_false (by decide),
      show (('f' : Char) = 'b') = False from eq_false (by decide),
      show (('f' : Char) = 'f') = True from eq_true rfl,
      if_true, if_false]
    rw [show Char.ofNat 12 = c from by rw [← g7, Char.ofNat_toNat]]
  · simp only [List.cons_append]
    exact (psb_u c.toNat (by omega) (by omega) f tail).trans (by rw [Char.ofNat_toNat])
  · rw [parseStringBody.eq_def]
    simp only [List.cons_append, List.nil_append,
      show (c = dquote) = False from eq_false g1,
      show (c = bslash) = False from eq_false g2,
      show (c.toNat < 0x20) = False from eq_false g8,
      if_true, if_false]
  · rcases char_valid_range c with hv | hv
    · simp only [List.cons_append]
      exact (psb_u c.toNat g10 (by omega) f tail).trans (by rw [Char.ofNat_toNat])
    · simp only [List.cons_append]
      exact (psb_u c.toNat g10 (by omega) f tail).trans (by rw [Char.ofNat_toNat])
  · have hval : c.toNat < 0x110000 := by
      rcases char_valid_range c with hv | hv
      · omega
      · exact hv.2
    have hge : 0x10000 ≤ c.toNat := by omega
    simp only [List.cons_append, List.append_assoc]
    have hrec : 0x10000 + ((0xD800 + (c.toNat - 0x10000) / 0x400) - 0xD800) * 0x400 +
        ((0xDC00 + (c.toNat - 0x10000) % 0x400) - 0xDC00) = c.toNat := by omega
    exact (psb_u2 (0xD800 + (c.toNat - 0x10000) / 0x400) (0xDC00 + (c.toNat - 0x10000) % 0x400)
      (by omega) (by omega) f tail).trans (by rw [hrec, Char.ofNat_toNat])

theorem psb_round : ∀ (s rest : List Char) (fuel : ℕ), s.length + 1 ≤ fuel →
    parseStringBody fuel (s.flatMap escChar ++ dquote :: rest) = some (s, rest) := by
  intro s
  induction s with
  | nil =>
    intro rest fuel h
    match fuel, h with
    | f + 1, _ =>
      rw [parseStringBody.eq_def]
      simp only [List.flatMap_nil, List.nil_append,
        show (dquote = dquote) = True from eq_true rfl, if_true]
  | cons c tl ih =>
    intro rest fuel h
    match fuel, h with
    | f + 1, h =>
      rw [List.flatMap_cons, List.append_assoc, psb_step,
        ih rest f (by simp only [List.length_cons] at h; omega)]
      rfl

/-! ### `json.loads` of `json.dumps` -/

theorem skipWs_cons (c : Char) (t : List Char) (h : isWsChar c = false) :
    skipWs (c :: t) = c :: t := by
  simp [skipWs, List.dropWhile_cons, h]

theorem skipWs_space (t : List Char) : skipWs (' ' :: t) = skipWs t := by
  simp [skipWs, List.dropWhile_cons, show isWsChar ' ' = true from by decide]

theorem dropLit_prefix : ∀ (l s : List Char), dropLit l (l ++ s) = some s := by
  intro l
  induction l with
  | nil => intro s; rfl
  | cons a tl ih =>
    intro s
    simp [dropLit, ih]

theorem dropLit_ne (a b : Char) (l s : List Char) (h : b ≠ a) :
    dropLit (a :: l) (b :: s) = none := by
  simp [dropLit, h]

set_option maxHeartbeats 2000000 in
theorem esc_len_ge : ∀ s : List Char, s.length ≤ (s.flatMap escChar).length := by
  intro s
  induction s with
  | nil => simp
  | cons c tl ih =>
    have h1 : 1 ≤ (escChar c).length := by
      unfold escChar
      split_ifs <;> simp [hex4]
    simp only [List.flatMap_cons, List.length_append, List.length_cons]
    omega

theorem objInsert_fresh : ∀ (acc : List (List Char × JVal)) (k : List Char) (v : JVal),
    (∀ p ∈ acc, p.1 ≠ k) → objInsert acc k v = acc ++ [(k, v)] := by
  intro acc k v
  induction acc with
  | nil => intro _; rfl
  | cons p tl ih =>
    intro h
    rcases p with ⟨k2, v2⟩
    have hne : k2 ≠ k := h (k2, v2) (by simp)
    simp only [objInsert, if_neg hne, List.cons_append]
    rw [ih (fun q hq => h q (by simp [hq]))]

theorem numBoundary_comma (l : List Char) : numBoundary (',' :: l) :=
  ⟨by decide, by decide, by decide, by decide⟩

theorem numBoundary_rsq (l : List Char) : numBoundary (']' :: l) :=
  ⟨by decide, by decide, by decide, by decide⟩

theorem numBoundary_rbrace (l : List Char) : numBoundary (rbrace :: l) :=
  ⟨by decide, by decide, by decide, by decide⟩

theorem dumps_head (v : JVal) (hwf : jwf v = true) :
    ∃ d t, dumpsVal v = d :: t ∧ isWsChar d = false ∧ d ≠ ']' := by
  cases v with
  | null => exact ⟨'n', _, rfl, by decide, by decide⟩
  | bool b =>
    cases b with
    | true => exact ⟨'t', _, rfl, by decide, by decide⟩
    | false => exact ⟨'f', _, rfl, by decide, by decide⟩
  | int n =>
    show ∃ d t, intChars n = d :: t ∧ _
    unfold intChars
    by_cases hneg : n < 0
    · rw [if_pos hneg]
      exact ⟨'-', _, rfl, by decide, by decide⟩
    · rw [if_neg hneg]
      obtain ⟨d, tl, heq, hdig, _⟩ := natDigits_head n.toNat
      have hd := digit_not_special d hdig
      exact ⟨d, tl, heq, hd.1, hd.2.2.2.2.2.2.2.2.2.2.2.2.2.1⟩
  | fnum m e => simp [jwf] at hwf
  | nan => simp [jwf] at hwf
  | inf b => simp [jwf] at hwf
  | str s => exact ⟨dquote, _, rfl, by decide, by decide⟩
  | arr xs => exact ⟨'[', _, rfl, by decide, by decide⟩
  | obj kvs => exact ⟨lbrace, _, rfl, by decide, by decide⟩

theorem parseAtom_null (rest : List Char) :
    parseAtom ('n' :: 'u' :: 'l' :: 'l' :: rest) = some (.null, rest) := by
  simp [parseAtom, dropLit]

theorem parseAtom_true (rest : List Char) :
    parseAtom ('t' :: 'r' :: 'u' :: 'e' :: rest) = some (.bool true, rest) := by
  simp [parseAtom, dropLit]

theorem parseAtom_false (rest : List Char) :
    parseAtom ('f' :: 'a' :: 'l' :: 's' :: 'e' :: rest) = some (.bool false, rest) := by
  simp [parseAtom, dropLit]

theorem parseAtom_num (n : ℤ) (rest : List Char) (hb : numBoundary rest) :
    parseAtom (intChars n ++ rest) = some (.int n, rest) := by
  have hpn := parseNumber_int n rest hb
  obtain ⟨d, t, heq, hn, ht, hf, hN, hI⟩ :
      ∃ d t, intChars n ++ rest = d :: t ∧ d ≠ 'n' ∧ d ≠ 't' ∧ d ≠ 'f' ∧ d ≠ 'N' ∧ d ≠ 'I' := by
    unfold intChars
    by_cases hneg : n < 0
    · rw [if_pos hneg, List.cons_append]
      exact ⟨'-', _, rfl, by decide, by decide, by decide, by decide, by decide⟩
    · rw [if_neg hneg]
      obtain ⟨d, tl, hd, hdig, _⟩ := natDigits_head n.toNat
      have hs := digit_not_special d hdig
      rw [hd, List.cons_append]
      exact ⟨d, _, rfl, hs.2.2.2.2.2.2.2.2.1, hs.2.2.2.2.2.2.2.2.2.1,
        hs.2.2.2.2.2.2.2.2.2.2.1, hs.2.2.2.2.2.2.2.2.2.2.2.1, hs.2.2.2.2.2.2.2.2.2.2.2.2.1⟩
  rw [heq] at hpn ⊢
  unfold parseAtom
  rw [show ("null".data : List Char) = 'n' :: 'u' :: 'l' :: 'l' :: [] from rfl,
    show ("true".data : List Char) = 't' :: 'r' :: 'u' :: 'e' :: [] from rfl,
    show ("false".data : List Char) = 'f' :: 'a' :: 'l' :: 's' :: 'e' :: [] from rfl,
    show ("NaN".data : List Char) = 'N' :: 'a' :: 'N' :: [] from rfl,
    show ("Infinity".data : List Char) = 'I' :: 'n' :: 'f' :: 'i' :: 'n' :: 'i' :: 't' :: 'y' :: [] from rfl,
    dropLit_ne _ _ _ _ hn, dropLit_ne _ _ _ _ ht, dropLit_ne _ _ _ _ hf,
    dropLit_ne _ _ _ _ hN, dropLit_ne _ _ _ _ hI, hpn]

theorem pv_atom (f : ℕ) (d : Char) (t : List Char)
    (h1 : d ≠ dquote) (h2 : d ≠ lbrace) (h3 : d ≠ '[') :
    parseValue (f + 1) (d :: t) = parseAtom (d :: t) := by
  rw [parseValue.eq_def]
  simp only [eq_false h1, eq_false h2, eq_false h3, if_false]

theorem pv_str (f : ℕ) (s rest : List Char) :
    parseValue (f + 1) (dumpStr s ++ rest) = some (.str s, rest) := by
  have hshape : dumpStr s ++ rest = dquote :: (s.flatMap escChar ++ dquote :: rest) := by
    simp [dumpStr]
  rw [hshape, parseValue.eq_def]
  simp only [show (dquote = dquote) = True from eq_true rfl, if_true]
  rw [psb_round s rest _ (by
    have := esc_len_ge s
    simp only [List.length_append, List.length_cons]
    omega)]
  rfl

theorem dumpsElems_cons (x : JVal) (xs : List JVal) :
    dumpsElems (x :: xs) =
      dumpsVal x ++ (if xs.isEmpty then [] else ',' :: ' ' :: dumpsElems xs) := by
  cases xs <;> simp [dumpsElems]

theorem dumpsMembers_cons (k : List Char) (v : JVal) (tl : List (List Char × JVal)) :
    dumpsMembers ((k, v) :: tl) =
      dumpStr k ++ ':' :: ' ' :: dumpsVal v ++
        (if tl.isEmpty then [] else ',' :: ' ' :: dumpsMembers tl) := by
  cases tl <;> simp [dumpsMembers]

theorem jsize_pos (v : JVal) : 1 ≤ jsize v := by
  cases v <;> simp [jsize]

theorem intChars_shape (n : ℤ) :
    ∃ d t, intChars n = d :: t ∧ (d = '-' ∨ isDigitChar d = true) := by
  unfold intChars
  by_cases hneg : n < 0
  · rw [if_pos hneg]
    exact ⟨'-', _, rfl, Or.inl rfl⟩
  · rw [if_neg hneg]
    obtain ⟨d, tl, hd, hdig, _⟩ := natDigits_head n.toNat
    exact ⟨d, tl, hd, Or.inr hdig⟩

theorem rt_main : ∀ fuel : ℕ,
    (∀ v rest, jwf v = true → jsize v ≤ fuel → numBoundary rest →
      parseValue fuel (dumpsVal v ++ rest) = some (v, rest)) ∧
    (∀ kvs acc rest, mwf kvs = true → kvs ≠ [] → msize kvs ≤ fuel →
      (∀ p ∈ acc, ∀ q ∈ kvs, p.1 ≠ q.1) →
      parseMembers fuel acc (dumpsMembers kvs ++ rbrace :: rest) =
        some (.obj (acc ++ kvs), rest)) ∧
    (∀ xs acc rest, ewf xs = true → xs ≠ [] → esize xs ≤ fuel →
      parseElements fuel acc (dumpsElems xs ++ ']' :: rest) =
        some (.arr (acc ++ xs), rest)) := by
  intro fuel
  induction fuel using Nat.strong_induction_on with
  | _ fuel ih =>
  refine ⟨?_, ?_, ?_⟩
  · intro v rest hwf hsz hb
    have hpos := jsize_pos v
    obtain ⟨f, rfl⟩ : ∃ f, fuel = f + 1 := ⟨fuel - 1, by omega⟩
    cases v with
    | null =>
      show parseValue (f + 1) ('n' :: 'u' :: 'l' :: 'l' :: rest) = some (.null, rest)
      rw [pv_atom f _ _ (by decide) (by decide) (by decide), parseAtom_null]
    | bool b =>
      cases b with
      | true =>
        show parseValue (f + 1) ('t' :: 'r' :: 'u' :: 'e' :: rest) = some (.bool true, rest)
        rw [pv_atom f _ _ (by decide) (by decide) (by decide), parseAtom_true]
      | false =>
        show parseValue (f + 1) ('f' :: 'a' :: 'l' :: 's' :: 'e' :: rest) =
          some (.bool false, rest)
        rw [pv_atom f _ _ (by decide) (by decide) (by decide), parseAtom_false]
    | int n =>
      show parseValue (f + 1) (intChars n ++ rest) = some (.int n, rest)
      obtain ⟨d, t, heq, hd⟩ := intChars_shape n
      have hne : d ≠ dquote ∧ d ≠ lbrace ∧ d ≠ '[' := by
        rcases hd with hd | hd
        · subst hd; exact ⟨by decide, by decide, by decide⟩
        · have hs := digit_not_special d hd
          exact ⟨hs.2.1, hs.2.2.1, hs.2.2.2.1⟩
      rw [heq, List.cons_append, pv_atom f _ _ hne.1 hne.2.1 hne.2.2,
        ← List.cons_append, ← heq, parseAtom_num n rest hb]
    | fnum m e => simp [jwf] at hwf
    | nan => simp [jwf] at hwf
    | inf b => simp [jwf] at hwf
    | str s => exact pv_str f s rest
    | arr xs =>
      have hsz' : esize xs ≤ f := by simp [jsize] at hsz; omega
      have hew : ewf xs = true := by simpa [jwf] using hwf
      have hshape : dumpsVal (.arr xs) ++ rest = '[' :: (dumpsElems xs ++ ']' :: rest) := by
        simp [dumpsVal, List.append_assoc]
      rw [hshape, parseValue.eq_def]
      simp only [eq_false (by decide : ¬ ('[' : Char) = dquote),
        eq_false (by decide : ¬ ('[' : Char) = lbrace),
        eq_true (rfl : ('[' : Char) = '['), if_true, if_false]
      cases xs with
      | nil =>
        simp only [dumpsElems, List.nil_append,
          skipWs_cons _ _ (by decide : isWsChar ']' = false),
          eq_true (rfl : (']' : Char) = ']'), if_true]
      | cons v tl =>
        have hjw : jwf v = true := by
          simp only [ewf, Bool.and_eq_true] at hew
          exact hew.1
        obtain ⟨d, t, hdv, hdw, hdr⟩ := dumps_head v hjw
        obtain ⟨L, hL⟩ : ∃ L, dumpsElems (v :: tl) ++ ']' :: rest = d :: L := by
          rw [dumpsElems_cons, hdv]
          simp only [List.cons_append, List.append_assoc]
          exact ⟨_, rfl⟩
        rw [hL, skipWs_cons _ _ hdw]
        simp only [eq_false hdr, if_false]
        rw [← hL]
        exact ((ih f (by omega)).2.2 (v :: tl) [] rest hew (List.cons_ne_nil _ _) hsz').trans
          (by rw [List.nil_append])
    | obj kvs =>
      have hsz' : msize kvs ≤ f := by simp [jsize] at hsz; omega
      have hmw : mwf kvs = true := by simpa [jwf] using hwf
      have hshape : dumpsVal (.obj kvs) ++ rest = lbrace :: (dumpsMembers kvs ++ rbrace :: rest) := by
        simp [dumpsVal, List.append_assoc]
      rw [hshape, parseValue.eq_def]
      simp only [eq_false (by decide : ¬ lbrace = dquote),
        eq_true (rfl : lbrace = lbrace), if_true, if_false]
      cases kvs with
      | nil =>
        simp only [dumpsMembers, List.nil_append,
          skipWs_cons _ _ (by decide : isWsChar rbrace = false),
          eq_true (rfl : rbrace = rbrace), if_true]
      | cons kv tl =>
        rcases kv with ⟨k, v⟩
        obtain ⟨L, hL⟩ : ∃ L, dumpsMembers ((k, v) :: tl) ++ rbrace :: rest = dquote :: L := by
          rw [dumpsMembers_cons, dumpStr]
          simp only [List.cons_append, List.append_assoc]
          exact ⟨_, rfl⟩
        rw [hL, skipWs_cons _ _ (by decide : isWsChar dquote = false)]
        simp only [eq_false (by decide : ¬ dquote = rbrace), if_false]
        rw [← hL]
        exact ((ih f (by omega)).2.1 ((k, v) :: tl) [] rest hmw (List.cons_ne_nil _ _) hsz'
          (fun p hp => absurd hp (List.not_mem_nil p))).trans (by rw [List.nil_append])
  · intro kvs acc rest hmw hne hsz hfresh
    cases kvs with
    | nil => exact absurd rfl hne
    | cons kv tl =>
      rcases kv with ⟨k, v⟩
      obtain ⟨f, rfl⟩ : ∃ f, fuel = f + 1 := ⟨fuel - 1, by simp [msize] at hsz; omega⟩
      simp only [mwf, Bool.and_eq_true, Bool.not_eq_true'] at hmw
      have hkey : ∀ q ∈ tl, q.1 ≠ k := by
        intro q hq hcontra
        have : tl.any (fun p => p.1 = k) = true :=
          List.any_eq_true.mpr ⟨q, hq, by simp [hcontra]⟩
        rw [hmw.1.1] at this
        exact Bool.false_ne_true this
      have hjv : jwf v = true := hmw.1.2
      have hfr : ∀ p ∈ acc, p.1 ≠ k :=
        fun p hp => hfresh p hp (k, v) (List.mem_cons_self _ _)
      obtain ⟨d, t, hdv, hdw, _⟩ := dumps_head v hjv
      cases tl with
      | nil =>
        have hs1 : dumpsMembers [(k, v)] ++ rbrace :: rest =
            dquote :: (k.flatMap escChar ++ dquote ::
              (':' :: ' ' :: (dumpsVal v ++ rbrace :: rest))) := by
          simp [dumpsMembers, dumpStr, List.append_assoc]
        have hv1 := (ih f (by omega)).1 v (rbrace :: rest) hjv
          (by simp [msize] at hsz; omega) (numBoundary_rbrace rest)
        obtain ⟨L2, hL2⟩ : ∃ L2, dumpsVal v ++ rbrace :: rest = d :: L2 :=
          ⟨t ++ rbrace :: rest, by rw [hdv, List.cons_append]⟩
        rw [hs1, parseMembers.eq_def]
        simp only [eq_true (rfl : dquote = dquote), if_true]
        rw [psb_round k (':' :: ' ' :: (dumpsVal v ++ rbrace :: rest)) _ (by
          have := esc_len_ge k
          simp only [List.length_append, List.length_cons]
          omega)]
        simp only [skipWs_cons ':' (' ' :: (dumpsVal v ++ rbrace :: rest)) (by decide),
          eq_true (rfl : (':' : Char) = ':'), if_true, skipWs_space]
        rw [hL2, skipWs_cons d L2 hdw, ← hL2, hv1]
        simp only [objInsert_fresh acc k v hfr,
          skipWs_cons rbrace rest (by decide),
          eq_false (by decide : ¬ rbrace = ','), eq_true (rfl : rbrace = rbrace),
          if_true, if_false]
      | cons kv2 tl2 =>
        rcases kv2 with ⟨k2, v2⟩
        have hs1 : dumpsMembers ((k, v) :: (k2, v2) :: tl2) ++ rbrace :: rest =
            dquote :: (k.flatMap escChar ++ dquote ::
              (':' :: ' ' :: (dumpsVal v ++ (',' :: ' ' ::
                (dumpsMembers ((k2, v2) :: tl2) ++ rbrace :: rest))))) := by
          rw [dumpsMembers_cons]
          simp [dumpStr, List.append_assoc]
        have hv1 := (ih f (by omega)).1 v
          (',' :: ' ' :: (dumpsMembers ((k2, v2) :: tl2) ++ rbrace :: rest)) hjv
          (by simp [msize] at hsz; omega) (numBoundary_comma _)
        have hfr2 : ∀ p ∈ acc ++ [(k, v)], ∀ q ∈ (k2, v2) :: tl2, p.1 ≠ q.1 := by
          intro p hp q hq
          rcases List.mem_append.1 hp with hp | hp
          · exact hfresh p hp q (List.mem_cons_of_mem _ hq)
          · have hpk : p = (k, v) := by simpa using hp
            subst hpk
            exact (hkey q hq).symm
        have hv2 := (ih f (by omega)).2.1 ((k2, v2) :: tl2) (acc ++ [(k, v)]) rest hmw.2
          (List.cons_ne_nil _ _) (by simp [msize] at hsz ⊢; omega) hfr2
        obtain ⟨L2, hL2⟩ : ∃ L2, dumpsVal v ++ (',' :: ' ' ::
            (dumpsMembers ((k2, v2) :: tl2) ++ rbrace :: rest)) = d :: L2 :=
          ⟨_, by rw [hdv, List.cons_append]⟩
        obtain ⟨L3, hL3⟩ : ∃ L3, dumpsMembers ((k2, v2) :: tl2) ++ rbrace :: rest =
            dquote :: L3 := by
          rw [dumpsMembers_cons, dumpStr]
          simp only [List.cons_append, List.append_assoc]
          exact ⟨_, rfl⟩
        rw [hs1, parseMembers.eq_def]
        simp only [eq_true (rfl : dquote = dquote), if_true]
        rw [psb_round k (':' :: ' ' :: (dumpsVal v ++ (',' :: ' ' ::
          (dumpsMembers ((k2, v2) :: tl2) ++ rbrace :: rest)))) _ (by
          have := esc_len_ge k
          simp only [List.length_append, List.length_cons]
          omega)]
        simp only [skipWs_cons ':' (' ' :: (dumpsVal v ++ (',' :: ' ' ::
            (dumpsMembers ((k2, v2) :: tl2) ++ rbrace :: rest)))) (by decide),
          eq_true (rfl : (':' : Char) = ':'), if_true, skipWs_space]
        rw [hL2, skipWs_cons d L2 hdw, ← hL2, hv1]
        simp only [objInsert_fresh acc k v hfr,
          skipWs_cons ',' (' ' :: (dumpsMembers ((k2, v2) :: tl2) ++ rbrace :: rest))
            (by decide),
          eq_true (rfl : (',' : Char) = ','), if_true, skipWs_space]
        rw [hL3, skipWs_cons dquote L3 (by decide), ← hL3, hv2]
        simp [List.append_assoc]
  · intro xs acc rest hew hne hsz
    cases xs with
    | nil => exact absurd rfl hne
    | cons v tl =>
      obtain ⟨f, rfl⟩ : ∃ f, fuel = f + 1 := ⟨fuel - 1, by simp [esize] at hsz; omega⟩
      have hj : jwf v = true ∧ ewf tl = true := by
        simpa [ewf, Bool.and_eq_true] using hew
      rw [parseElements.eq_def]
      cases tl with
      | nil =>
        have hs1 : dumpsElems [v] ++ ']' :: rest = dumpsVal v ++ ']' :: rest := by
          simp [dumpsElems]
        rw [hs1]
        simp only [(ih f (by omega)).1 v (']' :: rest) hj.1
            (by simp [esize] at hsz; omega) (numBoundary_rsq rest),
          skipWs_cons ']' rest (by decide),
          eq_false (by decide : ¬ (']' : Char) = ','), eq_true (rfl : (']' : Char) = ']'),
          if_true, if_false]
      | cons v2 tl2 =>
        have hs1 : dumpsElems (v :: v2 :: tl2) ++ ']' :: rest =
            dumpsVal v ++ (',' :: ' ' :: (dumpsElems (v2 :: tl2) ++ ']' :: rest)) := by
          rw [dumpsElems_cons]
          simp [List.append_assoc]
        rw [hs1]
        have hj2 : jwf v2 = true ∧ ewf tl2 = true := by
          simpa [ewf, Bool.and_eq_true] using hj.2
        obtain ⟨d, t, hdv, hdw, _⟩ := dumps_head v2 hj2.1
        obtain ⟨L, hL⟩ : ∃ L, dumpsElems (v2 :: tl2) ++ ']' :: rest = d :: L := by
          rw [dumpsElems_cons, hdv]
          simp only [List.cons_append, List.append_assoc]
          exact ⟨_, rfl⟩
        have hv1 := (ih f (by omega)).1 v
          (',' :: ' ' :: (dumpsElems (v2 :: tl2) ++ ']' :: rest)) hj.1
          (by simp [esize] at hsz; omega) (numBoundary_comma _)
        have hv2 := (ih f (by omega)).2.2 (v2 :: tl2) (acc ++ [v]) rest hj.2
          (List.cons_ne_nil _ _) (by simp [esize] at hsz ⊢; omega)
        simp only []
        rw [hv1]
        simp only [skipWs_cons ',' (' ' :: (dumpsElems (v2 :: tl2) ++ ']' :: rest)) (by decide),
          eq_true (rfl : (',' : Char) = ','), if_true, skipWs_space]
        rw [hL, skipWs_cons d L hdw, ← hL, hv2]
        simp [List.append_assoc]

theorem intChars_len (m : ℤ) : 1 ≤ (intChars m).length := by
  unfold intChars
  split_ifs
  · simp
  · cases hic : natDigits m.toNat with
    | nil => exact absurd hic (natDigits_ne_nil _)
    | cons a l => simp

theorem jsize_le_dumps_aux : ∀ (n : ℕ),
    (∀ v : JVal, jsize v ≤ n → jsize v ≤ (dumpsVal v).length) ∧
    (∀ xs : List JVal, esize xs ≤ n → esize xs ≤ 1 + (dumpsElems xs).length) ∧
    (∀ kvs : List (List Char × JVal), msize kvs ≤ n →
      msize kvs ≤ 1 + (dumpsMembers kvs).length) := by
  intro n
  induction n using Nat.strong_induction_on with
  | _ n ih =>
  refine ⟨?_, ?_, ?_⟩
  · intro v hsz
    cases v with
    | null => simp [jsize, dumpsVal]
    | bool b => cases b <;> simp [jsize, dumpsVal]
    | int m =>
      simp only [jsize, dumpsVal]
      exact intChars_len m
    | fnum m e =>
      have := intChars_len m
      simp only [jsize, dumpsVal, List.length_append, List.length_cons]
      omega
    | nan => simp [jsize, dumpsVal]
    | inf b => cases b <;> simp [jsize, dumpsVal]
    | str s => simp [jsize, dumpsVal, dumpStr]
    | arr xs =>
      simp only [jsize, dumpsVal] at hsz ⊢
      have h1 : esize xs ≤ n - 1 := by omega
      have := (ih (n - 1) (by omega)).2.1 xs h1
      simp only [List.length_cons, List.length_append]
      omega
    | obj kvs =>
      simp only [jsize, dumpsVal] at hsz ⊢
      have h1 : msize kvs ≤ n - 1 := by omega
      have := (ih (n - 1) (by omega)).2.2 kvs h1
      simp only [List.length_cons, List.length_append]
      omega
  · intro xs hsz
    cases xs with
    | nil => simp [esize]
    | cons v tl =>
      cases tl with
      | nil =>
        simp only [esize, dumpsElems] at hsz ⊢
        have h1 : jsize v ≤ n - 1 := by omega
        have := (ih (n - 1) (by omega)).1 v h1
        omega
      | cons v2 tl2 =>
        simp only [esize, dumpsElems] at hsz ⊢
        have h1 : jsize v ≤ n - 1 := by omega
        have h2 : esize (v2 :: tl2) ≤ n - 1 := by simp [esize]; omega
        have i1 := (ih (n - 1) (by omega)).1 v h1
        have i2 := (ih (n - 1) (by omega)).2.1 (v2 :: tl2) h2
        simp only [List.length_append, List.length_cons]
        simp only [esize] at i2
        omega
  · intro kvs hsz
    cases kvs with
    | nil => simp [msize]
    | cons kv tl =>
      rcases kv with ⟨k, v⟩
      cases tl with
      | nil =>
        simp only [msize, dumpsMembers] at hsz ⊢
        have h1 : jsize v ≤ n - 1 := by omega
        have := (ih (n - 1) (by omega)).1 v h1
        simp only [List.length_append, List.length_cons]
        omega
      | cons kv2 tl2 =>
        simp only [msize, dumpsMembers] at hsz ⊢
        have h1 : jsize v ≤ n - 1 := by omega
        have h2 : msize (kv2 :: tl2) ≤ n - 1 := by simp [msize]; omega
        have i1 := (ih (n - 1) (by omega)).1 v h1
        have i2 := (ih (n - 1) (by omega)).2.2 (kv2 :: tl2) h2
        simp only [List.length_append, List.length_cons]
        simp only [msize] at i2
        omega

theorem jsize_le_dumps (v : JVal) : jsize v ≤ (dumpsVal v).length :=
  (jsize_le_dumps_aux (jsize v)).1 v le_rfl

theorem jsonLoads_dumps (v : JVal) (hwf : jwf v = true) :
    jsonLoads (dumpsVal v) = some v := by
  unfold jsonLoads
  obtain ⟨d, t, hdv, hdw, _⟩ := dumps_head v hwf
  have h1 : parseValue ((dumpsVal v).length + 1) (dumpsVal v ++ []) = some (v, []) :=
    (rt_main ((dumpsVal v).length + 1)).1 v [] hwf
      (le_trans (jsize_le_dumps v) (by omega)) trivial
  rw [hdv, skipWs_cons d t hdw, ← hdv]
  rw [List.append_nil] at h1
  rw [h1]
  rfl

/-! ### Token-level round-trip -/

theorem encode_no_dot (bs : List ℕ) (hb : ∀ b ∈ bs, b < 256) (padded : Bool) :
    '.' ∉ b64urlEncodeBytes bs padded := by
  have hlt := bytesToSextets_lt bs.length bs le_rfl hb
  intro hmem
  unfold b64urlEncodeBytes at hmem
  have hdata : '.' ∉ (bytesToSextets bs).map valToChar := by
    intro hm
    obtain ⟨v, hv, hveq⟩ := List.mem_map.1 hm
    exact (valToChar_class ⟨v, hlt v hv⟩).2.2.2.1 hveq
  cases padded
  · simp only [Bool.false_eq_true, if_false] at hmem
    exact hdata hmem
  · simp only [if_true] at hmem
    rcases List.mem_append.1 hmem with hm | hm
    · exact hdata hm
    · exact absurd (List.eq_of_mem_replicate hm) (by decide)

theorem jsonLoadsBytes_dumps (v : JVal) (hwf : jwf v = true) :
    jsonLoadsBytes (strBytes (dumpsVal v)) = some v := by
  have hasc := dumps_ascii v
  have hsb : strBytes (dumpsVal v) = (dumpsVal v).map Char.toNat := strBytes_ascii _ hasc
  obtain ⟨d, t, hdv, _, _⟩ := dumps_head v hwf
  unfold jsonLoadsBytes
  have hbom : ((dumpsVal v).map Char.toNat).take 3 ≠ [0xEF, 0xBB, 0xBF] := by
    rw [hdv]
    simp only [List.map_cons]
    intro hcon
    have h1 : d.toNat = 0xEF := by
      have h2 := congrArg (fun l => l.head?) hcon
      simpa using h2
    have hd := hasc d (by rw [hdv]; simp)
    omega
  rw [hsb, if_neg hbom]
  show (utf8Decode ((dumpsVal v).map Char.toNat)).bind jsonLoads = some v
  rw [utf8Decode_ascii _ hasc]
  exact jsonLoads_dumps v hwf

theorem decode_encode (h p : JVal) (sig : List Char) (padded : Bool)
    (hwh : jwf h = true) (hwp : jwf p = true) (hsig : '.' ∉ sig) :
    decodeToken (encodeToken h p sig padded) = some (h, p) := by
  have hbh : ∀ b ∈ strBytes (dumpsVal h), b < 256 := by
    intro b hb
    rw [strBytes_ascii _ (dumps_ascii h)] at hb
    obtain ⟨c, hc, rfl⟩ := List.mem_map.1 hb
    have := dumps_ascii h c hc
    omega
  have hbp : ∀ b ∈ strBytes (dumpsVal p), b < 256 := by
    intro b hb
    rw [strBytes_ascii _ (dumps_ascii p)] at hb
    obtain ⟨c, hc, rfl⟩ := List.mem_map.1 hb
    have := dumps_ascii p c hc
    omega
  have hnd1 := encode_no_dot _ hbh padded
  have hnd2 := encode_no_dot _ hbp padded
  have h1 : segmentToJson (b64urlEncodeBytes (strBytes (dumpsVal h)) padded) = some h := by
    unfold segmentToJson
    rw [segmentBytes_encode _ hbh padded]
    exact jsonLoadsBytes_dumps h hwh
  have h2 : segmentToJson (b64urlEncodeBytes (strBytes (dumpsVal p)) padded) = some p := by
    unfold segmentToJson
    rw [segmentBytes_encode _ hbp padded]
    exact jsonLoadsBytes_dumps p hwp
  unfold decodeToken encodeToken
  rw [splitOnDot_three _ _ _ hnd1 hnd2 hsig]
  simp only [h1, h2]

/-- C8: for every three-segment token whose header and payload segments are
base64url encodings (padded or unpadded) of the `json.dumps` bytes of JSON
object values, `_decode`'s pipeline returns exactly the original header and
claims mappings: encode-then-decode round-trips both objects. -/
theorem C8_roundtrip (hkvs pkvs : List (List Char × JVal)) (sig : List Char) (padded : Bool)
    (hwh : jwf (.obj hkvs) = true) (hwp : jwf (.obj pkvs) = true) (hsig : '.' ∉ sig) :
    decodeToken (encodeToken (.obj hkvs) (.obj pkvs) sig padded) =
      some (.obj hkvs, .obj pkvs) :=
  decode_encode _ _ sig padded hwh hwp hsig

theorem C8_roundtrip_witness :
    (jwf (JVal.obj [(['a'], .int 5)]) = true ∧
      jwf (JVal.obj [(['b'], .str ['x'])]) = true ∧ '.' ∉ ['s', 'i', 'g']) ∧
    decodeToken (encodeToken (JVal.obj [(['a'], .int 5)]) (JVal.obj [(['b'], .str ['x'])])
      ['s', 'i', 'g'] true) = some (JVal.obj [(['a'], .int 5)], JVal.obj [(['b'], .str ['x'])]) :=
  ⟨⟨by decide, by decide, by decide⟩,
    C8_roundtrip [(['a'], .int 5)] [(['b'], .str ['x'])] ['s', 'i', 'g'] true
      (by decide) (by decide) (by decide)⟩
